/-
Verification of the option-merge logic and the discovery/choice helpers of
`lutris/sysoptions.py`, and of two behaviours of
`lutris/gui/installerwindow.py`, via a shallow embedding.

Python dictionaries are modelled as insertion-ordered association lists;
a well-formed dictionary has pairwise distinct keys (an invariant of every
dictionary the Python runtime can construct).  Lookup takes the first
match; assignment replaces the first matching entry in place, or appends a
fresh entry at the end — exactly the `dict` / `OrderedDict` semantics on
well-formed dictionaries.
-/
import Mathlib

set_option linter.unusedVariables false
set_option linter.unusedSectionVars false

namespace Lutris

/-! ## Association lists: the Python dictionary model -/

section AssocOps

variable {κ β : Type} [DecidableEq κ]

/-- `d.get(k)` / `d[k]` lookup: the first entry whose key is `k`. -/
def alGet (l : List (κ × β)) (k : κ) : Option β :=
  (l.find? (fun p => p.1 = k)).map (·.2)

/-- `d[k] = v`: replace the first entry with key `k` in place, or append a
new entry at the end when `k` is absent. -/
def alSet : List (κ × β) → κ → β → List (κ × β)
  | [], k, v => [(k, v)]
  | (k', v') :: rest, k, v =>
      if k' = k then (k', v) :: rest else (k', v') :: alSet rest k v

/-- The key list of an association list, in order. -/
def alKeys (l : List (κ × β)) : List κ := l.map (·.1)

end AssocOps

/-- Python values occurring in option descriptors, as far as the modelled
code inspects them: strings, integers, booleans, and an opaque constructor
for anything else (callables, lists, …), which the code only stores and
never looks inside. -/
inductive Val where
  | str (s : String)
  | int (n : Int)
  | bool (b : Bool)
  | other (tag : Nat)
  deriving DecidableEq, Repr

/-- A Python dictionary with `String` keys. -/
abbrev Dict := List (String × Val)

/-- `d.get(k)` / `d[k]` on a descriptor dictionary. -/
def pyGet (d : Dict) (k : String) : Option Val := alGet d k

/-- `d[k] = v` on a descriptor dictionary. -/
def dictSet (d : Dict) (k : String) (v : Val) : Dict := alSet d k v

/-- `d.update(o)`: iterate `o` in order, assigning each of its entries
into `d`. -/
def dictUpdate (d o : Dict) : Dict :=
  o.foldl (fun acc p => dictSet acc p.1 p.2) d

/-- Field-name list of a descriptor. -/
def dictKeys (d : Dict) : List String := alKeys d

/-- Well-formedness: a Python dict always has pairwise distinct keys. -/
def DictWF (d : Dict) : Prop := (dictKeys d).Nodup

instance (d : Dict) : Decidable (DictWF d) := by
  unfold DictWF; infer_instance

/-! ## `with_runner_overrides`: the ordered override merge

Source (`lutris/sysoptions.py`, lines 524–543):

    opts_dict = OrderedDict((opt["option"], opt) for opt in options)
    for option in runner.system_options_override:
        key = option["option"]
        if opts_dict.get(key):
            opts_dict[key] = opts_dict[key].copy()
            opts_dict[key].update(option)
        else:
            opts_dict[key] = option
    options = list(opts_dict.values())

run only when `runner.system_options_override` is truthy (non-empty);
otherwise the base list is returned unchanged.  `.copy()` is the identity
in this value-level model (the heap model for the frame property is
below).  `none` models the `KeyError` raised when a descriptor lacks the
`"option"` field. -/

/-- The working `OrderedDict`, keyed by the Python value stored under each
descriptor's `"option"` field. -/
abbrev OD := List (Val × Dict)

/-- `opts_dict.get(key)`. -/
def odGet (od : OD) (k : Val) : Option Dict := alGet od k

/-- `opts_dict[key] = v`. -/
def odSet (od : OD) (k : Val) (d : Dict) : OD := alSet od k d

/-- Key list of the working ordered dict. -/
def odKeys (od : OD) : List Val := alKeys od

/-- One step of the override loop on the entry currently stored under the
override's key: when a truthy (non-empty) descriptor is present it is
copied and updated with the override's fields
(`opts_dict[key] = opts_dict[key].copy(); opts_dict[key].update(option)`);
when the key is absent, or maps to a falsy (empty) dict, the override
itself is assigned (`opts_dict[key] = option`). -/
def mergeSlot (cur : Option Dict) (o : Dict) : Dict :=
  match cur with
  | some d => if d.isEmpty then o else dictUpdate d o
  | none => o

/-- `OrderedDict((opt["option"], opt) for opt in options)`. -/
def buildOD : List Dict → OD → Option OD
  | [], od => some od
  | opt :: rest, od =>
      match pyGet opt "option" with
      | none => none
      | some key => buildOD rest (odSet od key opt)

/-- The loop `for option in runner.system_options_override: …`. -/
def mergeLoop : OD → List Dict → Option OD
  | od, [] => some od
  | od, o :: rest =>
      match pyGet o "option" with
      | none => none
      | some key => mergeLoop (odSet od key (mergeSlot (odGet od key) o)) rest

/-- The merge performed by `with_runner_overrides` once the runner's
`system_options_override` list has been resolved: when that list is falsy
(empty), the base list is returned unchanged; otherwise the ordered dict
is built from the base, every override is merged in, and the dict's values
are returned as a fresh list. -/
def with_runner_overrides_merge (options : List Dict) (overrides : List Dict) :
    Option (List Dict) :=
  if overrides.isEmpty then some options
  else
    (buildOD options []).bind fun od0 =>
      (mergeLoop od0 overrides).map fun od => od.map (·.2)

/-! ## Specification-side views of the merge

These definitions are not part of the source embedding; they name the
shapes the characterisation theorems below establish for `buildOD` and
`mergeLoop`. -/

/-- The overrides of `ov` targeting key `k`, in order. -/
def ovFor (ov : List Dict) (k : Val) : List Dict :=
  ov.filter (fun o => decide (pyGet o "option" = some k))

/-- The evolution of the single slot `k` of the working ordered dict over
a run of the override loop. -/
def mergeKeyVal (cur : Option Dict) (os : List Dict) : Option Dict :=
  os.foldl (fun c o => some (mergeSlot c o)) cur

/-- The keys the override loop appends, in first-occurrence order, when
run against a working dict whose key list is `ks`. -/
def newKeys (ks : List Val) : List Dict → List Val
  | [] => []
  | o :: rest =>
      match pyGet o "option" with
      | none => []
      | some k =>
          if k ∈ ks then newKeys ks rest else k :: newKeys (ks ++ [k]) rest

/-- Slot invariant of the working ordered dict: each stored descriptor is
well formed and carries its own slot key in its `"option"` field. -/
def SlotInv (od : OD) : Prop :=
  ∀ p ∈ od, pyGet p.2 "option" = some p.1 ∧ DictWF p.2

/-- The shape `buildOD` produces on a base list with distinct keys: each
descriptor paired with its own `"option"` value, in order. -/
def pairUp : List Dict → Option OD
  | [] => some []
  | o :: rest =>
      match pyGet o "option" with
      | none => none
      | some k => (pairUp rest).map (fun z => (k, o) :: z)

/-- All field names mentioned by a list of override dictionaries. -/
def fieldsOf (os : List Dict) : List String := (os.map dictKeys).flatten

/-- The value the last dictionary in `os` that mentions `f` assigns to it. -/
def lastVal : List Dict → String → Option Val
  | [], _ => none
  | o :: rest, f =>
      match lastVal rest f with
      | some v => some v
      | none => pyGet o f

/-! ## Environment probes and choice helpers (`sysoptions.py`, top half)

`gettext`'s `_` is the identity on the label strings and is dropped.  The
host environment (display manager, `system.find_executable`, `glob.glob`,
the `glxinfo` shell pipeline, `USE_DRI_PRIME`) is a parameter. -/

/-- Prefix match on character lists (helper for the substring test). -/
def leadMatch : List Char → List Char → Bool
  | [], _ => true
  | _ :: _, [] => false
  | a :: as, b :: bs => a == b && leadMatch as bs

/-- Substring occurrence at any position (helper for `pyIn`). -/
def subAt : List Char → List Char → Bool
  | n, [] => leadMatch n []
  | n, h :: t => leadMatch n (h :: t) || subAt n t

/-- Python's `needle in haystack` on strings: contiguous substring test. -/
def pyIn (needle hay : String) : Bool := subAt needle.toList hay.toList

/-- The host environment probed by the discovery helpers:
`DISPLAY_MANAGER.get_resolutions()`, `DISPLAY_MANAGER.get_display_names()`,
the truthiness of `system.find_executable`, the `glob.glob` result for
each Vulkan data directory's `icd.d/*.json` pattern, the decoded
stdout+stderr text of the `glxinfo` shell pipeline for a given command
string, and the imported `USE_DRI_PRIME` flag. -/
structure Env where
  resolutions : List String
  displayNames : List String
  findExecutable : String → Bool
  globJson : String → List String
  glxinfoOutput : String → String
  useDriPrime : Bool

def VULKAN_DATA_DIRS : List String :=
  ["/usr/local/etc/vulkan",
   "/usr/local/share/vulkan",
   "/etc/vulkan",
   "/usr/share/vulkan",
   "/usr/lib/x86_64-linux-gnu/GL/vulkan",
   "/usr/lib/i386-linux-gnu/GL/vulkan",
   "/opt/amdgpu-pro/etc/vulkan"]

/-- `get_resolution_choices`: zip the resolutions with themselves and
insert the "Keep current"/"off" sentinel at position 0. -/
def get_resolution_choices (env : Env) : List (String × String) :=
  ("Keep current", "off") :: env.resolutions.zip env.resolutions

/-- `get_output_choices`: zip the display names with themselves, insert
"Off"/"off" at 0 and "Primary"/"primary" at 1. -/
def get_output_choices (env : Env) : List (String × String) :=
  ("Off", "off") :: ("Primary", "primary") :: env.displayNames.zip env.displayNames

/-- `get_output_list`: "Off" sentinel, then each output with its index as
the value. -/
def get_output_list (env : Env) : List (String × String) :=
  ("Off", "off") :: env.displayNames.enum.map (fun p => (p.2, toString p.1))

/-- `get_optirun_choices`: "Off" sentinel, then an entry per detected
Optimus launcher executable. -/
def get_optirun_choices (env : Env) : List (String × String) :=
  [("Off", "off")]
    ++ (if env.findExecutable "primusrun" then [("primusrun", "primusrun")] else [])
    ++ (if env.findExecutable "optirun" then [("optirun/virtualgl", "optirun")] else [])
    ++ (if env.findExecutable "pvkrun" then [("primus vk", "pvkrun")] else [])

/-- `get_gpu_vendor_cmd`: the shell pipeline used to detect the GPU
vendor. -/
def get_gpu_vendor_cmd (env : Env) (is_nvidia : Bool) : String :=
  if is_nvidia then
    "__GLX_VENDOR_LIBRARY_NAME=nvidia glxinfo | grep -i opengl | grep -i vendor"
  else if env.useDriPrime then
    "DRI_PRIME=1 glxinfo | grep -i opengl | grep -i vendor"
  else
    "glxinfo | grep -i opengl | grep -i vendor"

/-- The five loader accumulator lists of `get_vk_icd_choices`. -/
structure IcdFiles where
  intel : List String
  amdradv : List String
  nvidia : List String
  amdvlk : List String
  amdvlkpro : List String

/-- One step of the loader classification `elif` chain of
`get_vk_icd_choices`, keyed on substrings of the loader's full path. -/
def classifyLoader (acc : IcdFiles) (loader : String) : IcdFiles :=
  if pyIn "intel" loader then { acc with intel := acc.intel ++ [loader] }
  else if pyIn "radeon" loader then { acc with amdradv := acc.amdradv ++ [loader] }
  else if pyIn "nvidia" loader then { acc with nvidia := acc.nvidia ++ [loader] }
  else if pyIn "amd" loader then
    if pyIn "pro" loader then { acc with amdvlkpro := acc.amdvlkpro ++ [loader] }
    else { acc with amdvlk := acc.amdvlk ++ [loader] }
  else acc

/-- The loader scan of `get_vk_icd_choices`: every `icd.d/*.json` glob
match under each Vulkan data directory, classified in order.  (The
`icd_files` defaultdict built alongside in the source is never read again
and is omitted.) -/
def vkLoaderFiles (env : Env) : IcdFiles :=
  ((VULKAN_DATA_DIRS.map env.globJson).flatten).foldl classifyLoader
    ⟨[], [], [], [], []⟩

/-- `default_gpu`: the decoded output of the vendor probe, whose command
depends on whether any NVIDIA loader was found (`bool(nvidia_files)`). -/
def vkDefaultGpu (env : Env) : String :=
  env.glxinfoOutput
    (get_gpu_vendor_cmd env
      (!(String.intercalate ":" (vkLoaderFiles env).nvidia).isEmpty))

/-- `get_vk_icd_choices`: the initial `choices` list holds the warning
sentinel; each branch of the vendor `if`/`elif` chain REPLACES the whole
list with the matching auto entry; the per-vendor entries found on disk
are then appended. -/
def get_vk_icd_choices (env : Env) : List (String × String) :=
  let files := vkLoaderFiles env
  let intel_files := String.intercalate ":" files.intel
  let amdradv_files := String.intercalate ":" files.amdradv
  let nvidia_files := String.intercalate ":" files.nvidia
  let amdvlk_files := String.intercalate ":" files.amdvlk
  let amdvlkpro_files := String.intercalate ":" files.amdvlkpro
  let default_gpu := vkDefaultGpu env
  let base :=
    if pyIn "Intel" default_gpu then
      [("Auto: Intel Open Source (MESA: ANV)", intel_files)]
    else if pyIn "AMD" default_gpu then
      [("Auto: AMD RADV Open Source (MESA: RADV)", amdradv_files)]
    else if pyIn "NVIDIA" default_gpu then
      [("Auto: Nvidia Proprietary", nvidia_files)]
    else [("Auto: WARNING -- No Vulkan Loader detected!", "")]
  base
    ++ (if !intel_files.isEmpty then
          [("Intel Open Source (MESA: ANV)", intel_files)] else [])
    ++ (if !amdradv_files.isEmpty then
          [("AMD RADV Open Source (MESA: RADV)", amdradv_files)] else [])
    ++ (if !nvidia_files.isEmpty then
          [("Nvidia Proprietary", nvidia_files)] else [])
    ++ (if !amdvlk_files.isEmpty then
          (if amdvlkpro_files.isEmpty then
            [("AMDVLK/AMDGPU-PRO Proprietary", amdvlk_files)]
          else [("AMDVLK Open source", amdvlk_files)]) else [])
    ++ (if !amdvlkpro_files.isEmpty then
          [("AMDGPU-PRO Proprietary", amdvlkpro_files)] else [])

/-! ## `installerwindow.py`: script validation and file confirmation -/

/-- An installer script, a dictionary like any other. -/
abbrev Script := Dict

/-- Python truthiness of the modelled values (opaque objects are truthy). -/
def pyTruthy : Val → Bool
  | .str s => !s.isEmpty
  | .int n => decide (n ≠ 0)
  | .bool b => b
  | .other _ => true

/-- `script[item] = script.get(item) or ""`. -/
def fixItem (s : Script) (item : String) : Script :=
  dictSet s item
    (match pyGet s item with
     | some v => if pyTruthy v then v else Val.str ""
     | none => Val.str "")

/-- The auto-fix loop over `["description", "notes"]`. -/
def fixScript (s : Script) : Script :=
  fixItem (fixItem s "description") "notes"

def REQUIRED_FIELDS : List String := ["name", "runner", "version"]

/-- The first required field missing from a script, scanned in the order
`["name", "runner", "version"]` (`item not in script`). -/
def firstMissing (s : Script) : Option String :=
  if (pyGet s "name").isNone then some "name"
  else if (pyGet s "runner").isNone then some "runner"
  else if (pyGet s "version").isNone then some "version"
  else none

/-- `_('Missing field "%s" in install script') % item`. -/
def missingFieldMsg (item : String) : String :=
  "Missing field \x22" ++ item ++ "\x22 in install script"

/-- The per-script loop of `validate_scripts`: auto-fix, then check the
mandatory fields, raising a `ScriptingError` (modelled as `Except.error`
with the error's message) on the first missing one. -/
def validateLoop : List Script → Except String (List Script)
  | [] => Except.ok []
  | s :: rest =>
      let f := fixScript s
      match firstMissing f with
      | some item => Except.error (missingFieldMsg item)
      | none => (validateLoop rest).map (fun v => f :: v)

/-- `InstallerWindow.validate_scripts`. -/
def validate_scripts (installers : List Script) : Except String (List Script) :=
  if installers.isEmpty then Except.error "No installer available"
  else validateLoop installers

/-- `InstallerWindow.__init__` calls `choose_installer`, whose first
statement is `self.validate_scripts()`; a `ScriptingError` raised there
propagates out of the constructor, so construction aborts before the
`InstallerPicker` is built.  The widget construction itself carries no
data relevant to validation and is represented by the validated script
list handed to the picker on success. -/
def installer_window_init (installers : List Script) : Except String (List Script) :=
  match validate_scripts installers with
  | Except.error e => Except.error e
  | Except.ok v => Except.ok v

/-- The pieces of `InstallerWindow` state that `on_files_confirmed`
touches: the status label text, the continue button's sensitivity, and
whether `continue_handler` is connected. -/
structure FilesState where
  status : String
  continueSensitive : Bool
  continueConnected : Bool
  deriving DecidableEq, Repr

/-- Outcome of the collaborator call `file_box.start_all()`. -/
inductive StartAllResult where
  | ok
  | permissionError (msg : String)

/-- `InstallerWindow.on_files_confirmed`: clear the status, disable the
continue button, run `start_all`; on success disconnect the continue
handler; on `PermissionError` re-enable the continue button and raise a
`ScriptingError` (returned as the second component) with the cause
appended. -/
def on_files_confirmed (st : FilesState) (startAll : StartAllResult) :
    FilesState × Option String :=
  let st1 : FilesState := { st with status := "", continueSensitive := false }
  match startAll with
  | .ok => ({ st1 with continueConnected := false }, none)
  | .permissionError msg =>
      ({ st1 with continueSensitive := true },
        some ("Unable to get files: " ++ msg))

/-! ## Heap model of `with_runner_overrides` for the frame property

Descriptor dictionaries are heap objects referenced by address; the base
list and the override list hold addresses.  `opts_dict[key].copy()`
allocates a fresh object; `.update(option)` mutates the fresh object in
place.  This model makes the claim "the base descriptors are never
mutated" expressible. -/

abbrev Addr := Nat

structure Heap where
  dicts : List Dict
  deriving DecidableEq, Repr

def Heap.get? (h : Heap) (a : Addr) : Option Dict := h.dicts.get? a

def Heap.alloc (h : Heap) (d : Dict) : Heap × Addr :=
  (⟨h.dicts ++ [d]⟩, h.dicts.length)

def Heap.set (h : Heap) (a : Addr) (d : Dict) : Heap := ⟨h.dicts.set a d⟩

/-- The working ordered dict, now mapping keys to addresses. -/
abbrev ODA := List (Val × Addr)

/-- `OrderedDict((opt["option"], opt) for opt in options)` over the heap
(no allocation or mutation: the dict shares the descriptor objects). -/
def buildODH (h : Heap) : List Addr → ODA → Option ODA
  | [], od => some od
  | a :: rest, od =>
      match h.get? a with
      | none => none
      | some d =>
          match pyGet d "option" with
          | none => none
          | some key => buildODH h rest (alSet od key a)

/-- One iteration of the override loop over the heap:
`key = option["option"]`; when `opts_dict.get(key)` is a truthy (non-empty)
descriptor, `opts_dict[key] = opts_dict[key].copy()` allocates a fresh
copy and `opts_dict[key].update(option)` mutates that copy in place;
otherwise `opts_dict[key] = option` shares the override object. -/
def mergeStepH (h : Heap) (od : ODA) (oa : Addr) : Option (Heap × ODA) :=
  (h.get? oa).bind fun o =>
    (pyGet o "option").bind fun key =>
      (alGet od key).elim (some (h, alSet od key oa)) fun da =>
        (h.get? da).map fun d =>
          if d.isEmpty then (h, alSet od key oa)
          else
            ((h.alloc d).1.set (h.alloc d).2 (dictUpdate d o),
              alSet od key (h.alloc d).2)

/-- `for option in runner.system_options_override: …` over the heap. -/
def mergeLoopH : Heap → ODA → List Addr → Option (Heap × ODA)
  | h, od, [] => some (h, od)
  | h, od, oa :: rest =>
      (mergeStepH h od oa).bind fun p => mergeLoopH p.1 p.2 rest

/-- `with_runner_overrides` over the heap: returns the possibly grown heap
and the fresh `list(opts_dict.values())` of addresses. -/
def with_runner_overridesH (h : Heap) (options overrides : List Addr) :
    Option (Heap × List Addr) :=
  if overrides.isEmpty then some (h, options)
  else
    (buildODH h options []).bind fun od0 =>
      (mergeLoopH h od0 overrides).map fun p => (p.1, p.2.map (·.2))

/-! ## Concrete test fixtures -/

/-- The spec's example base list. -/
def baseEx : List Dict :=
  [[("option", Val.str "a"), ("v", Val.int 1)],
   [("option", Val.str "b"), ("v", Val.int 2)],
   [("option", Val.str "c"), ("v", Val.int 3)]]

/-- The spec's example override list. -/
def ovEx : List Dict :=
  [[("option", Val.str "b"), ("v", Val.int 99)],
   [("option", Val.str "d"), ("v", Val.int 4)]]

/-- A host with nothing installed: no executables, no Vulkan data
directories, and the shell's "command not found" text from the vendor
probe. -/
def envAbsent : Env :=
  ⟨[], [], fun _ => false, fun _ => [],
    fun _ => "sh: glxinfo: command not found", false⟩

/-- A host with one Intel ICD loader and an Intel OpenGL vendor string. -/
def envIntel : Env :=
  ⟨["1920x1080"], ["DP-1"], fun _ => false,
    fun dir => if dir = "/usr/share/vulkan" then
        ["/usr/share/vulkan/icd.d/intel_icd.x86_64.json"]
      else [],
    fun _ => "OpenGL vendor string: Intel Open Source Technology Center",
    false⟩

/-! ## Association-list lemmas -/

section AssocLemmas

variable {κ β : Type} [DecidableEq κ]

theorem alGet_nil (k : κ) : alGet ([] : List (κ × β)) k = none := rfl

theorem alGet_cons (k' : κ) (v' : β) (rest : List (κ × β)) (k : κ) :
    alGet ((k', v') :: rest) k = if k' = k then some v' else alGet rest k := by
  simp only [alGet, List.find?]
  by_cases h : k' = k <;> simp [h]

theorem alGet_alSet (l : List (κ × β)) (k k' : κ) (v : β) :
    alGet (alSet l k v) k' = if k = k' then some v else alGet l k' := by
  induction l with
  | nil =>
      by_cases h : k = k' <;> simp [alSet, alGet_cons, alGet_nil, h]
  | cons p rest ih =>
      obtain ⟨k₀, v₀⟩ := p
      simp only [alSet]
      by_cases h₀ : k₀ = k
      · subst h₀
        rw [if_pos rfl, alGet_cons, alGet_cons]
        by_cases h : k₀ = k' <;> simp [h]
      · rw [if_neg h₀, alGet_cons, alGet_cons, ih]
        by_cases h' : k₀ = k'
        · subst h'
          have hne : ¬k = k₀ := fun hh => h₀ hh.symm
          simp [hne]
        · simp [h']

theorem alKeys_nil : alKeys ([] : List (κ × β)) = [] := rfl

theorem alKeys_cons (k : κ) (v : β) (rest : List (κ × β)) :
    alKeys ((k, v) :: rest) = k :: alKeys rest := rfl

theorem mem_alKeys_iff_get (l : List (κ × β)) (k : κ) :
    k ∈ alKeys l ↔ (alGet l k).isSome := by
  induction l with
  | nil => simp [alKeys_nil, alGet_nil]
  | cons p rest ih =>
      obtain ⟨k₀, v₀⟩ := p
      rw [alKeys_cons, alGet_cons]
      by_cases h : k₀ = k
      · subst h; simp
      · simp [h, Ne.symm h, ih]

theorem alGet_eq_none_of_not_mem (l : List (κ × β)) (k : κ)
    (h : k ∉ alKeys l) : alGet l k = none := by
  have := (mem_alKeys_iff_get l k).not.mp h
  cases hg : alGet l k with
  | none => rfl
  | some v => rw [hg] at this; simp at this

theorem alKeys_alSet_of_mem (l : List (κ × β)) (k : κ) (v : β)
    (h : k ∈ alKeys l) : alKeys (alSet l k v) = alKeys l := by
  induction l with
  | nil => simp [alKeys_nil] at h
  | cons p rest ih =>
      obtain ⟨k₀, v₀⟩ := p
      simp only [alSet]
      by_cases h₀ : k₀ = k
      · rw [if_pos h₀, alKeys_cons, alKeys_cons]
      · rw [alKeys_cons] at h
        rcases List.mem_cons.mp h with h | h
        · exact absurd h.symm h₀
        · rw [if_neg h₀, alKeys_cons, alKeys_cons, ih h]

theorem alSet_of_not_mem (l : List (κ × β)) (k : κ) (v : β)
    (h : k ∉ alKeys l) : alSet l k v = l ++ [(k, v)] := by
  induction l with
  | nil => simp [alSet]
  | cons p rest ih =>
      obtain ⟨k₀, v₀⟩ := p
      rw [alKeys_cons] at h
      simp only [List.mem_cons, not_or] at h
      have hne : ¬k₀ = k := fun hh => h.1 hh.symm
      simp only [alSet, if_neg hne, List.cons_append, List.cons.injEq, true_and]
      exact ih h.2

theorem alKeys_alSet_of_not_mem (l : List (κ × β)) (k : κ) (v : β)
    (h : k ∉ alKeys l) : alKeys (alSet l k v) = alKeys l ++ [k] := by
  rw [alSet_of_not_mem l k v h]
  simp [alKeys]

theorem alKeys_alSet_nodup (l : List (κ × β)) (k : κ) (v : β)
    (h : (alKeys l).Nodup) : (alKeys (alSet l k v)).Nodup := by
  by_cases hm : k ∈ alKeys l
  · rw [alKeys_alSet_of_mem l k v hm]; exact h
  · rw [alKeys_alSet_of_not_mem l k v hm]
    simp [List.nodup_append, h, hm]

theorem length_alSet_of_mem (l : List (κ × β)) (k : κ) (v : β)
    (h : k ∈ alKeys l) : (alSet l k v).length = l.length := by
  have := congrArg List.length (alKeys_alSet_of_mem l k v h)
  simpa [alKeys] using this

theorem mem_of_mem_alSet {l : List (κ × β)} {k : κ} {v : β} {p : κ × β}
    (h : p ∈ alSet l k v) : p = (k, v) ∨ p ∈ l := by
  induction l with
  | nil => simp [alSet] at h; simp [h]
  | cons q rest ih =>
      obtain ⟨k₀, v₀⟩ := q
      simp only [alSet] at h
      by_cases h₀ : k₀ = k
      · rw [if_pos h₀] at h
        rcases List.mem_cons.mp h with h | h
        · left; rw [h, h₀]
        · right; exact List.mem_cons_of_mem _ h
      · rw [if_neg h₀] at h
        rcases List.mem_cons.mp h with h | h
        · right; exact h ▸ List.mem_cons_self _ _
        · rcases ih h with h | h
          · left; exact h
          · right; exact List.mem_cons_of_mem _ h

theorem mem_of_alGet_eq_some {l : List (κ × β)} {k : κ} {v : β}
    (h : alGet l k = some v) : (k, v) ∈ l := by
  induction l with
  | nil => simp [alGet_nil] at h
  | cons p rest ih =>
      obtain ⟨k₀, v₀⟩ := p
      rw [alGet_cons] at h
      by_cases h₀ : k₀ = k
      · rw [if_pos h₀] at h
        subst h₀
        obtain rfl : v₀ = v := by simpa using h
        exact List.mem_cons_self _ _
      · rw [if_neg h₀] at h
        exact List.mem_cons_of_mem _ (ih h)

theorem alSet_eq_self_of_get {l : List (κ × β)} {k : κ} {v : β}
    (h : alGet l k = some v) : alSet l k v = l := by
  induction l with
  | nil => simp [alGet_nil] at h
  | cons p rest ih =>
      obtain ⟨k₀, v₀⟩ := p
      rw [alGet_cons] at h
      simp only [alSet]
      by_cases h₀ : k₀ = k
      · rw [if_pos h₀] at h
        obtain rfl : v₀ = v := by simpa using h
        simp [h₀]
      · rw [if_neg h₀] at h
        simp [h₀, ih h]

/-- Extensionality: association lists with the same (duplicate-free) key
sequence and the same lookup function are equal. -/
theorem al_ext (l l' : List (κ × β))
    (hk : alKeys l = alKeys l') (hnd : (alKeys l).Nodup)
    (hget : ∀ k, alGet l k = alGet l' k) : l = l' := by
  induction l generalizing l' with
  | nil =>
      cases l' with
      | nil => rfl
      | cons p rest =>
          obtain ⟨k₁, v₁⟩ := p
          rw [alKeys_nil, alKeys_cons] at hk
          exact absurd hk (by simp)
  | cons p rest ih =>
      obtain ⟨k₀, v₀⟩ := p
      cases l' with
      | nil =>
          rw [alKeys_cons, alKeys_nil] at hk
          exact absurd hk (by simp)
      | cons q rest' =>
          obtain ⟨k₁, v₁⟩ := q
          rw [alKeys_cons, alKeys_cons] at hk
          injection hk with hkk hrest
          subst hkk
          rw [alKeys_cons] at hnd
          have hnd' := List.nodup_cons.mp hnd
          have hv : v₀ = v₁ := by
            have := hget k₀
            rw [alGet_cons, alGet_cons, if_pos rfl, if_pos rfl] at this
            simpa using this
          subst hv
          have hget' : ∀ k, alGet rest k = alGet rest' k := by
            intro k
            by_cases h : k₀ = k
            · subst h
              rw [alGet_eq_none_of_not_mem rest k₀ hnd'.1,
                alGet_eq_none_of_not_mem rest' k₀ (hrest ▸ hnd'.1)]
            · have := hget k
              rwa [alGet_cons, alGet_cons, if_neg h, if_neg h] at this
          rw [ih rest' hrest hnd'.2 hget']

end AssocLemmas

/-! ## Dictionary-update lemmas -/

theorem pyGet_ne_nil {d : Dict} {k : String} {v : Val}
    (h : pyGet d k = some v) : d ≠ [] := by
  intro hnil
  rw [hnil] at h
  simp [pyGet, alGet] at h

theorem dictUpdate_nil (d : Dict) : dictUpdate d [] = d := rfl

theorem dictUpdate_cons (d : Dict) (k : String) (v : Val) (o : Dict) :
    dictUpdate d ((k, v) :: o) = dictUpdate (dictSet d k v) o := rfl

theorem pyGet_dictSet (d : Dict) (k k' : String) (v : Val) :
    pyGet (dictSet d k v) k' = if k = k' then some v else pyGet d k' :=
  alGet_alSet d k k' v

theorem pyGet_dictUpdate_of_none {o : Dict} {f : String}
    (h : pyGet o f = none) (d : Dict) :
    pyGet (dictUpdate d o) f = pyGet d f := by
  induction o generalizing d with
  | nil => rfl
  | cons p rest ih =>
      obtain ⟨k, v⟩ := p
      rw [dictUpdate_cons]
      have hk : ¬k = f := by
        intro hkf
        rw [pyGet, alGet_cons, if_pos hkf] at h
        simp at h
      have hrest : pyGet rest f = none := by
        rwa [pyGet, alGet_cons, if_neg hk] at h
      rw [ih hrest, pyGet_dictSet, if_neg hk]

theorem pyGet_dictUpdate_of_some {o : Dict} {f : String} {v : Val}
    (hwf : DictWF o) (h : pyGet o f = some v) (d : Dict) :
    pyGet (dictUpdate d o) f = some v := by
  induction o generalizing d with
  | nil => simp [pyGet, alGet] at h
  | cons p rest ih =>
      obtain ⟨k, v'⟩ := p
      rw [DictWF, dictKeys, alKeys_cons] at hwf
      have hwf' := List.nodup_cons.mp hwf
      rw [dictUpdate_cons]
      by_cases hk : k = f
      · subst hk
        rw [pyGet, alGet_cons, if_pos rfl] at h
        obtain rfl : v' = v := by simpa using h
        have hnone : pyGet rest k = none :=
          alGet_eq_none_of_not_mem rest k hwf'.1
        rw [pyGet_dictUpdate_of_none hnone, pyGet_dictSet, if_pos rfl]
      · rw [pyGet, alGet_cons, if_neg hk] at h
        exact ih hwf'.2 h (dictSet d k v')

theorem dictKeys_dictSet_of_mem (d : Dict) (k : String) (v : Val)
    (h : k ∈ dictKeys d) : dictKeys (dictSet d k v) = dictKeys d :=
  alKeys_alSet_of_mem d k v h

/-- Updating only ever appends keys: the original key sequence is an
initial segment of the updated one. -/
theorem dictKeys_dictUpdate_append (d o : Dict) :
    ∃ ks, dictKeys (dictUpdate d o) = dictKeys d ++ ks := by
  induction o generalizing d with
  | nil => exact ⟨[], by simp [dictUpdate_nil]⟩
  | cons p rest ih =>
      obtain ⟨k, v⟩ := p
      rw [dictUpdate_cons]
      obtain ⟨ks, hks⟩ := ih (dictSet d k v)
      by_cases hm : k ∈ dictKeys d
      · exact ⟨ks, by rw [hks, dictKeys_dictSet_of_mem d k v hm]⟩
      · refine ⟨k :: ks, ?_⟩
        rw [hks]
        simp only [dictKeys, dictSet] at hm ⊢
        rw [alKeys_alSet_of_not_mem d k v hm]
        simp

theorem dictUpdate_ne_nil {d : Dict} (h : d ≠ []) (o : Dict) :
    dictUpdate d o ≠ [] := by
  intro hnil
  obtain ⟨ks, hks⟩ := dictKeys_dictUpdate_append d o
  rw [hnil] at hks
  simp [dictKeys, alKeys] at hks
  cases d with
  | nil => exact h rfl
  | cons p rest => simp [alKeys_cons] at hks

theorem mem_dictKeys_dictUpdate_left (d o : Dict) {f : String}
    (h : f ∈ dictKeys d) : f ∈ dictKeys (dictUpdate d o) := by
  obtain ⟨ks, hks⟩ := dictKeys_dictUpdate_append d o
  rw [hks]
  exact List.mem_append_left _ h

theorem mem_dictKeys_dictUpdate_right (d : Dict) {o : Dict} {f : String}
    (h : f ∈ dictKeys o) : f ∈ dictKeys (dictUpdate d o) := by
  induction o generalizing d with
  | nil => simp [dictKeys, alKeys] at h
  | cons p rest ih =>
      obtain ⟨k, v⟩ := p
      rw [dictKeys, alKeys_cons] at h
      rw [dictUpdate_cons]
      rcases List.mem_cons.mp h with h | h
      · subst h
        apply mem_dictKeys_dictUpdate_left
        show f ∈ alKeys (dictSet d f v)
        rw [mem_alKeys_iff_get (l := dictSet d f v) (k := f)]
        rw [show alGet (dictSet d f v) f = pyGet (dictSet d f v) f from rfl,
          pyGet_dictSet, if_pos rfl]
        rfl
      · exact ih (dictSet d k v) h

theorem dictWF_dictSet {d : Dict} (hwf : DictWF d) (k : String) (v : Val) :
    DictWF (dictSet d k v) :=
  alKeys_alSet_nodup d k v hwf

theorem dictWF_dictUpdate {d : Dict} (hwf : DictWF d) (o : Dict) :
    DictWF (dictUpdate d o) := by
  induction o generalizing d with
  | nil => exact hwf
  | cons p rest ih =>
      obtain ⟨k, v⟩ := p
      rw [dictUpdate_cons]
      exact ih (dictWF_dictSet hwf k v)

theorem dictKeys_dictUpdate_of_sub {d o : Dict}
    (h : ∀ f ∈ dictKeys o, f ∈ dictKeys d) :
    dictKeys (dictUpdate d o) = dictKeys d := by
  induction o generalizing d with
  | nil => rfl
  | cons p rest ih =>
      obtain ⟨k, v⟩ := p
      rw [dictUpdate_cons]
      have hk : k ∈ dictKeys d := h k (by rw [dictKeys, alKeys_cons]; simp)
      have hrest : ∀ f ∈ dictKeys rest, f ∈ dictKeys (dictSet d k v) := by
        intro f hf
        rw [dictKeys_dictSet_of_mem d k v hk]
        exact h f (by rw [dictKeys, alKeys_cons]; exact List.mem_cons_of_mem _ hf)
      rw [ih hrest, dictKeys_dictSet_of_mem d k v hk]

/-! ## Last-wins characterisation of a fold of updates -/

theorem mem_fieldsOf {os : List Dict} {o : Dict} (ho : o ∈ os) {f : String}
    (hf : f ∈ dictKeys o) : f ∈ fieldsOf os := by
  rw [fieldsOf, List.mem_flatten]
  exact ⟨dictKeys o, List.mem_map_of_mem _ ho, hf⟩

theorem lastVal_eq_none_of_not_mem {os : List Dict} {f : String}
    (h : f ∉ fieldsOf os) : lastVal os f = none := by
  induction os with
  | nil => rfl
  | cons o rest ih =>
      rw [fieldsOf, List.map_cons, List.flatten_cons, List.mem_append, not_or] at h
      have hrest : lastVal rest f = none := ih h.2
      have hhead : pyGet o f = none := by
        apply alGet_eq_none_of_not_mem
        exact h.1
      simp [lastVal, hrest, hhead]

theorem pyGet_foldl_dictUpdate (os : List Dict) (hwf : ∀ o ∈ os, DictWF o)
    (d : Dict) (f : String) :
    pyGet (os.foldl dictUpdate d) f =
      match lastVal os f with
      | some v => some v
      | none => pyGet d f := by
  induction os generalizing d with
  | nil => simp [lastVal]
  | cons o rest ih =>
      have hrestwf : ∀ o' ∈ rest, DictWF o' :=
        fun o' ho' => hwf o' (List.mem_cons_of_mem _ ho')
      rw [List.foldl_cons, ih hrestwf (dictUpdate d o)]
      cases hrest : lastVal rest f with
      | some v => simp [lastVal, hrest]
      | none =>
          cases ho : pyGet o f with
          | some v =>
              simp only [lastVal, hrest, ho]
              exact pyGet_dictUpdate_of_some (hwf o (List.mem_cons_self _ _)) ho d
          | none => simp only [lastVal, hrest, ho, pyGet_dictUpdate_of_none ho d]

theorem dictWF_foldl_dictUpdate {d : Dict} (hwf : DictWF d) (os : List Dict) :
    DictWF (os.foldl dictUpdate d) := by
  induction os generalizing d with
  | nil => exact hwf
  | cons o rest ih => exact ih (dictWF_dictUpdate hwf o)

theorem foldl_dictUpdate_ne_nil {d : Dict} (h : d ≠ []) (os : List Dict) :
    os.foldl dictUpdate d ≠ [] := by
  induction os generalizing d with
  | nil => exact h
  | cons o rest ih => exact ih (dictUpdate_ne_nil h o)

theorem mem_dictKeys_foldl_base {d : Dict} {f : String}
    (h : f ∈ dictKeys d) (os : List Dict) :
    f ∈ dictKeys (os.foldl dictUpdate d) := by
  induction os generalizing d with
  | nil => exact h
  | cons o rest ih => exact ih (mem_dictKeys_dictUpdate_left d o h)

theorem mem_dictKeys_foldl_elem {os : List Dict} {o : Dict} (ho : o ∈ os)
    {f : String} (hf : f ∈ dictKeys o) (d : Dict) :
    f ∈ dictKeys (os.foldl dictUpdate d) := by
  induction os generalizing d with
  | nil => simp at ho
  | cons o' rest ih =>
      rcases List.mem_cons.mp ho with h | h
      · subst h
        exact mem_dictKeys_foldl_base (mem_dictKeys_dictUpdate_right d hf) rest
      · exact ih h (dictUpdate d o')

/-- If a dictionary already records the last-wins outcome of a sequence of
updates, replaying that sequence on it restores it exactly. -/
theorem foldl_dictUpdate_restore (os : List Dict) (E D : Dict)
    (hwfos : ∀ o ∈ os, DictWF o)
    (hsub : ∀ o ∈ os, ∀ f ∈ dictKeys o, f ∈ dictKeys D)
    (hkeys : dictKeys E = dictKeys D)
    (hndD : DictWF D)
    (hout : ∀ f, f ∉ fieldsOf os → pyGet E f = pyGet D f)
    (hlast : ∀ f v, lastVal os f = some v → pyGet D f = some v) :
    os.foldl dictUpdate E = D := by
  induction os generalizing E with
  | nil =>
      apply al_ext E D hkeys (by rw [show alKeys E = dictKeys E from rfl, hkeys]; exact hndD)
      intro k
      exact hout k (by simp [fieldsOf])
  | cons o rest ih =>
      have hwfo : DictWF o := hwfos o (List.mem_cons_self _ _)
      have hwfrest : ∀ o' ∈ rest, DictWF o' :=
        fun o' h => hwfos o' (List.mem_cons_of_mem _ h)
      have hsubrest : ∀ o' ∈ rest, ∀ f ∈ dictKeys o', f ∈ dictKeys D :=
        fun o' h => hsub o' (List.mem_cons_of_mem _ h)
      have hsubo : ∀ f ∈ dictKeys o, f ∈ dictKeys E := by
        intro f hf
        rw [show dictKeys E = dictKeys D from hkeys]
        exact hsub o (List.mem_cons_self _ _) f hf
      have hkeys' : dictKeys (dictUpdate E o) = dictKeys D := by
        rw [dictKeys_dictUpdate_of_sub hsubo, hkeys]
      rw [List.foldl_cons]
      apply ih (dictUpdate E o) hwfrest hsubrest hkeys'
      · intro f hf
        cases ho : pyGet o f with
        | some v =>
            rw [pyGet_dictUpdate_of_some hwfo ho E]
            apply (hlast f v ?_).symm
            rw [lastVal, lastVal_eq_none_of_not_mem hf]
            exact ho
        | none =>
            rw [pyGet_dictUpdate_of_none ho E]
            apply hout
            rw [fieldsOf, List.map_cons, List.flatten_cons, List.mem_append, not_or]
            refine ⟨?_, hf⟩
            intro hmem
            rw [show dictKeys o = alKeys o from rfl] at hmem
            have hsome := (mem_alKeys_iff_get o f).mp hmem
            rw [show alGet o f = pyGet o f from rfl, ho] at hsome
            simp at hsome
      · intro f v hv
        apply hlast f v
        rw [lastVal, hv]

/-- Replaying a sequence of updates on its own outcome changes nothing. -/
theorem foldl_dictUpdate_idem (os : List Dict) (d : Dict)
    (hwfos : ∀ o ∈ os, DictWF o) (hwfd : DictWF d) :
    os.foldl dictUpdate (os.foldl dictUpdate d) = os.foldl dictUpdate d := by
  apply foldl_dictUpdate_restore os _ _ hwfos
  · exact fun o ho f hf => mem_dictKeys_foldl_elem ho hf d
  · rfl
  · exact dictWF_foldl_dictUpdate hwfd os
  · exact fun f _ => rfl
  · intro f v hv
    rw [pyGet_foldl_dictUpdate os hwfos d f, hv]

/-- Replaying `o :: rest` on the outcome of running `rest` from start `o`
changes nothing: this is the new-key slot of the idempotence argument. -/
theorem foldl_dictUpdate_idem_cons (o : Dict) (rest : List Dict)
    (hwf : ∀ o' ∈ o :: rest, DictWF o') :
    (o :: rest).foldl dictUpdate (rest.foldl dictUpdate o) =
      rest.foldl dictUpdate o := by
  have hwfo : DictWF o := hwf o (List.mem_cons_self _ _)
  have hwfrest : ∀ o' ∈ rest, DictWF o' :=
    fun o' h => hwf o' (List.mem_cons_of_mem _ h)
  apply foldl_dictUpdate_restore _ _ _ hwf
  · intro o' ho' f hf
    rcases List.mem_cons.mp ho' with h | h
    · subst h
      exact mem_dictKeys_foldl_base hf rest
    · exact mem_dictKeys_foldl_elem h hf o
  · rfl
  · exact dictWF_foldl_dictUpdate hwfo rest
  · exact fun f _ => rfl
  · intro f v hv
    rw [lastVal] at hv
    cases hrest : lastVal rest f with
    | some v' =>
        rw [hrest] at hv
        simp only at hv
        rw [pyGet_foldl_dictUpdate rest hwfrest o f, hrest]
        exact hv
    | none =>
        rw [hrest] at hv
        simp only at hv
        rw [pyGet_foldl_dictUpdate rest hwfrest o f, hrest]
        exact hv

/-! ## Characterising `mergeLoop` -/

theorem mergeKeyVal_cons (cur : Option Dict) (o : Dict) (os : List Dict) :
    mergeKeyVal cur (o :: os) = mergeKeyVal (some (mergeSlot cur o)) os := rfl

theorem mergeLoop_cons_some {o : Dict} {key : Val}
    (h : pyGet o "option" = some key) (od : OD) (rest : List Dict) :
    mergeLoop od (o :: rest) =
      mergeLoop (odSet od key (mergeSlot (odGet od key) o)) rest := by
  rw [mergeLoop, h]

theorem mergeLoop_cons_none {o : Dict} (h : pyGet o "option" = none)
    (od : OD) (rest : List Dict) : mergeLoop od (o :: rest) = none := by
  rw [mergeLoop, h]

theorem ovFor_cons_eq {o : Dict} {key : Val} (h : pyGet o "option" = some key)
    (rest : List Dict) : ovFor (o :: rest) key = o :: ovFor rest key := by
  rw [ovFor, List.filter_cons]
  simp [h, ovFor]

theorem ovFor_cons_ne {o : Dict} {key k : Val} (h : pyGet o "option" = some key)
    (hne : ¬key = k) (rest : List Dict) :
    ovFor (o :: rest) k = ovFor rest k := by
  rw [ovFor, List.filter_cons]
  simp [h, hne, ovFor]

theorem mergeLoop_get {ov : List Dict} {od od' : OD}
    (h : mergeLoop od ov = some od') (k : Val) :
    odGet od' k = mergeKeyVal (odGet od k) (ovFor ov k) := by
  induction ov generalizing od with
  | nil =>
      obtain rfl : od = od' := by simpa [mergeLoop] using h
      rfl
  | cons o rest ih =>
      cases hko : pyGet o "option" with
      | none => rw [mergeLoop_cons_none hko] at h; simp at h
      | some key =>
          rw [mergeLoop_cons_some hko] at h
          have hrec := ih h
          have hset : ∀ k', odGet (odSet od key (mergeSlot (odGet od key) o)) k' =
              if key = k' then some (mergeSlot (odGet od key) o) else odGet od k' :=
            fun k' => alGet_alSet od key k' (mergeSlot (odGet od key) o)
          by_cases hkk : key = k
          · subst hkk
            rw [hrec, hset key, if_pos rfl, ovFor_cons_eq hko, mergeKeyVal_cons]
          · rw [hrec, hset k, if_neg hkk, ovFor_cons_ne hko hkk]

theorem newKeys_cons_some {o : Dict} {k : Val} (h : pyGet o "option" = some k)
    (ks : List Val) (rest : List Dict) :
    newKeys ks (o :: rest) =
      if k ∈ ks then newKeys ks rest else k :: newKeys (ks ++ [k]) rest := by
  rw [newKeys, h]

theorem mergeLoop_keys {ov : List Dict} {od od' : OD}
    (h : mergeLoop od ov = some od') :
    odKeys od' = odKeys od ++ newKeys (odKeys od) ov := by
  induction ov generalizing od with
  | nil =>
      obtain rfl : od = od' := by simpa [mergeLoop] using h
      simp [newKeys]
  | cons o rest ih =>
      cases hko : pyGet o "option" with
      | none => rw [mergeLoop_cons_none hko] at h; simp at h
      | some key =>
          rw [mergeLoop_cons_some hko] at h
          have hrest := ih h
          rw [newKeys_cons_some hko]
          by_cases hm : key ∈ odKeys od
          · rw [if_pos hm]
            rwa [show odKeys (odSet od key (mergeSlot (odGet od key) o)) = odKeys od
              from alKeys_alSet_of_mem od key _ hm] at hrest
          · rw [if_neg hm]
            rw [show odKeys (odSet od key (mergeSlot (odGet od key) o)) = odKeys od ++ [key]
              from alKeys_alSet_of_not_mem od key _ hm] at hrest
            rw [hrest, List.append_assoc]
            rfl

theorem mergeLoop_isSome (ov : List Dict)
    (hov : ∀ o ∈ ov, (pyGet o "option").isSome) (od : OD) :
    ∃ od', mergeLoop od ov = some od' := by
  induction ov generalizing od with
  | nil => exact ⟨od, rfl⟩
  | cons o rest ih =>
      obtain ⟨key, hkey⟩ :=
        Option.isSome_iff_exists.mp (hov o (List.mem_cons_self _ _))
      obtain ⟨od', hod'⟩ :=
        ih (fun o' h => hov o' (List.mem_cons_of_mem _ h))
          (odSet od key (mergeSlot (odGet od key) o))
      exact ⟨od', by rw [mergeLoop_cons_some hkey]; exact hod'⟩

theorem mergeLoop_nodup {ov : List Dict} {od od' : OD}
    (h : mergeLoop od ov = some od') (hnd : (odKeys od).Nodup) :
    (odKeys od').Nodup := by
  induction ov generalizing od with
  | nil =>
      obtain rfl : od = od' := by simpa [mergeLoop] using h
      exact hnd
  | cons o rest ih =>
      cases hko : pyGet o "option" with
      | none => rw [mergeLoop_cons_none hko] at h; simp at h
      | some key =>
          rw [mergeLoop_cons_some hko] at h
          exact ih h (alKeys_alSet_nodup od key _ hnd)

theorem mergeSlot_slot {cur : Option Dict} {o : Dict} {key : Val}
    (hko : pyGet o "option" = some key) (hwfo : DictWF o)
    (hcur : ∀ d, cur = some d → pyGet d "option" = some key ∧ DictWF d) :
    pyGet (mergeSlot cur o) "option" = some key ∧ DictWF (mergeSlot cur o) := by
  cases cur with
  | none => exact ⟨hko, hwfo⟩
  | some d =>
      obtain ⟨hd, hdwf⟩ := hcur d rfl
      rw [mergeSlot]
      by_cases he : d.isEmpty
      · rw [if_pos he]; exact ⟨hko, hwfo⟩
      · rw [if_neg he]
        exact ⟨pyGet_dictUpdate_of_some hwfo hko d, dictWF_dictUpdate hdwf o⟩

theorem mergeLoop_slotInv {ov : List Dict} {od od' : OD}
    (hov : ∀ o ∈ ov, DictWF o) (h : mergeLoop od ov = some od')
    (hinv : SlotInv od) : SlotInv od' := by
  induction ov generalizing od with
  | nil =>
      obtain rfl : od = od' := by simpa [mergeLoop] using h
      exact hinv
  | cons o rest ih =>
      cases hko : pyGet o "option" with
      | none => rw [mergeLoop_cons_none hko] at h; simp at h
      | some key =>
          rw [mergeLoop_cons_some hko] at h
          refine ih (fun o' h' => hov o' (List.mem_cons_of_mem _ h')) h ?_
          intro p hp
          rcases mem_of_mem_alSet hp with hp | hp
          · subst hp
            exact mergeSlot_slot hko (hov o (List.mem_cons_self _ _))
              (fun d hd => hinv (key, d) (mem_of_alGet_eq_some hd))
          · exact hinv p hp

theorem mergeLoop_keys_mono {ov : List Dict} {od od' : OD}
    (h : mergeLoop od ov = some od') {k : Val} (hk : k ∈ odKeys od) :
    k ∈ odKeys od' := by
  rw [mergeLoop_keys h]
  exact List.mem_append_left _ hk

theorem mem_alKeys_alSet_self {κ β : Type} [DecidableEq κ]
    (l : List (κ × β)) (k : κ) (v : β) : k ∈ alKeys (alSet l k v) := by
  by_cases hm : k ∈ alKeys l
  · rw [alKeys_alSet_of_mem l k v hm]; exact hm
  · rw [alKeys_alSet_of_not_mem l k v hm]; simp

theorem mergeLoop_ov_keys {ov : List Dict} {od od' : OD}
    (h : mergeLoop od ov = some od') :
    ∀ o ∈ ov, ∀ k, pyGet o "option" = some k → k ∈ odKeys od' := by
  induction ov generalizing od with
  | nil => intro o ho; simp at ho
  | cons o₀ rest ih =>
      cases hko : pyGet o₀ "option" with
      | none => rw [mergeLoop_cons_none hko] at h; simp at h
      | some key =>
          rw [mergeLoop_cons_some hko] at h
          intro o ho k hk
          rcases List.mem_cons.mp ho with ho | ho
          · subst ho
            obtain rfl : key = k := by rw [hko] at hk; simpa using hk
            exact mergeLoop_keys_mono h (mem_alKeys_alSet_self od key _)
          · exact ih h o ho k hk

theorem newKeys_eq_nil {ov : List Dict} {ks : List Val}
    (h : ∀ o ∈ ov, ∀ k, pyGet o "option" = some k → k ∈ ks) :
    newKeys ks ov = [] := by
  induction ov with
  | nil => rfl
  | cons o rest ih =>
      cases hko : pyGet o "option" with
      | none => rw [newKeys, hko]
      | some k =>
          rw [newKeys_cons_some hko, if_pos (h o (List.mem_cons_self _ _) k hko)]
          exact ih (fun o' h' => h o' (List.mem_cons_of_mem _ h'))

/-! ## Characterising `buildOD` -/

theorem alKeys_append {κ β : Type} [DecidableEq κ] (l₁ l₂ : List (κ × β)) :
    alKeys (l₁ ++ l₂) = alKeys l₁ ++ alKeys l₂ := by
  simp [alKeys]

theorem pairUp_cons_some {o : Dict} {k : Val} (h : pyGet o "option" = some k)
    (rest : List Dict) :
    pairUp (o :: rest) = (pairUp rest).map (fun z => (k, o) :: z) := by
  rw [pairUp, h]

theorem pairUp_cons_none {o : Dict} (h : pyGet o "option" = none)
    (rest : List Dict) : pairUp (o :: rest) = none := by
  rw [pairUp, h]

theorem buildOD_cons_some {o : Dict} {k : Val} (h : pyGet o "option" = some k)
    (rest : List Dict) (od : OD) :
    buildOD (o :: rest) od = buildOD rest (odSet od k o) := by
  rw [buildOD, h]

theorem buildOD_cons_none {o : Dict} (h : pyGet o "option" = none)
    (rest : List Dict) (od : OD) : buildOD (o :: rest) od = none := by
  rw [buildOD, h]

theorem buildOD_of_fresh {opts : List Dict} {zs : OD}
    (h : pairUp opts = some zs) :
    ∀ od : OD, (odKeys od ++ odKeys zs).Nodup → buildOD opts od = some (od ++ zs) := by
  induction opts generalizing zs with
  | nil =>
      obtain rfl : zs = [] := by simpa [pairUp] using h.symm
      intro od _
      simp [buildOD]
  | cons o rest ih =>
      cases hko : pyGet o "option" with
      | none => rw [pairUp_cons_none hko] at h; simp at h
      | some k =>
          rw [pairUp_cons_some hko] at h
          cases hrest : pairUp rest with
          | none => rw [hrest] at h; simp at h
          | some zs' =>
              rw [hrest] at h
              obtain rfl : (k, o) :: zs' = zs := by simpa using h
              intro od hnd
              rw [buildOD_cons_some hko]
              have hknotin : k ∉ odKeys od := by
                intro hmem
                simp only [odKeys, alKeys_cons] at hnd
                rcases List.nodup_append.mp hnd with ⟨_, _, hdisj⟩
                exact hdisj hmem (List.mem_cons_self _ _)
              rw [show odSet od k o = od ++ [(k, o)] from alSet_of_not_mem od k o hknotin]
              have hnd' : (odKeys (od ++ [(k, o)]) ++ odKeys zs').Nodup := by
                simp only [odKeys, alKeys_cons] at hnd
                simp only [odKeys, alKeys_append]
                simpa [alKeys, List.append_assoc] using hnd
              rw [ih hrest (od ++ [(k, o)]) hnd', List.append_assoc]
              rfl

theorem pairUp_values {opts : List Dict} {zs : OD}
    (h : pairUp opts = some zs) : zs.map (·.2) = opts := by
  induction opts generalizing zs with
  | nil =>
      obtain rfl : zs = [] := by simpa [pairUp] using h.symm
      rfl
  | cons o rest ih =>
      cases hko : pyGet o "option" with
      | none => rw [pairUp_cons_none hko] at h; simp at h
      | some k =>
          rw [pairUp_cons_some hko] at h
          cases hrest : pairUp rest with
          | none => rw [hrest] at h; simp at h
          | some zs' =>
              rw [hrest] at h
              obtain rfl : (k, o) :: zs' = zs := by simpa using h
              simp [ih hrest]

theorem pairUp_map_keyO {opts : List Dict} {zs : OD}
    (h : pairUp opts = some zs) :
    opts.map (fun o => pyGet o "option") = (odKeys zs).map some := by
  induction opts generalizing zs with
  | nil =>
      obtain rfl : zs = [] := by simpa [pairUp] using h.symm
      rfl
  | cons o rest ih =>
      cases hko : pyGet o "option" with
      | none => rw [pairUp_cons_none hko] at h; simp at h
      | some k =>
          rw [pairUp_cons_some hko] at h
          cases hrest : pairUp rest with
          | none => rw [hrest] at h; simp at h
          | some zs' =>
              rw [hrest] at h
              obtain rfl : (k, o) :: zs' = zs := by simpa using h
              simp only [List.map_cons, hko, odKeys, alKeys_cons]
              rw [show alKeys zs' = odKeys zs' from rfl, ← ih hrest]

theorem pairUp_slotInv {opts : List Dict} {zs : OD}
    (hwf : ∀ o ∈ opts, DictWF o) (h : pairUp opts = some zs) :
    SlotInv zs := by
  induction opts generalizing zs with
  | nil =>
      obtain rfl : zs = [] := by simpa [pairUp] using h.symm
      intro p hp
      simp at hp
  | cons o rest ih =>
      cases hko : pyGet o "option" with
      | none => rw [pairUp_cons_none hko] at h; simp at h
      | some k =>
          rw [pairUp_cons_some hko] at h
          cases hrest : pairUp rest with
          | none => rw [hrest] at h; simp at h
          | some zs' =>
              rw [hrest] at h
              obtain rfl : (k, o) :: zs' = zs := by simpa using h
              intro p hp
              rcases List.mem_cons.mp hp with hp | hp
              · subst hp
                exact ⟨hko, hwf o (List.mem_cons_self _ _)⟩
              · exact ih (fun o' h' => hwf o' (List.mem_cons_of_mem _ h')) hrest p hp

theorem pairUp_isSome {opts : List Dict}
    (h : ∀ o ∈ opts, (pyGet o "option").isSome) :
    ∃ zs, pairUp opts = some zs := by
  induction opts with
  | nil => exact ⟨[], rfl⟩
  | cons o rest ih =>
      obtain ⟨k, hk⟩ := Option.isSome_iff_exists.mp (h o (List.mem_cons_self _ _))
      obtain ⟨zs', hzs'⟩ := ih (fun o' h' => h o' (List.mem_cons_of_mem _ h'))
      exact ⟨(k, o) :: zs', by rw [pairUp_cons_some hk, hzs']; rfl⟩

theorem pairUp_of_slotInv {od : OD} (hinv : SlotInv od) :
    pairUp (od.map (·.2)) = some od := by
  induction od with
  | nil => rfl
  | cons p rest ih =>
      obtain ⟨k, d⟩ := p
      have hp := hinv (k, d) (List.mem_cons_self _ _)
      rw [List.map_cons, pairUp_cons_some hp.1,
        ih (fun q hq => hinv q (List.mem_cons_of_mem _ hq))]
      rfl

theorem buildOD_slotInv {opts : List Dict} {od od' : OD}
    (hwf : ∀ o ∈ opts, DictWF o) (h : buildOD opts od = some od')
    (hinv : SlotInv od) : SlotInv od' := by
  induction opts generalizing od with
  | nil =>
      obtain rfl : od = od' := by simpa [buildOD] using h
      exact hinv
  | cons o rest ih =>
      cases hko : pyGet o "option" with
      | none => rw [buildOD_cons_none hko] at h; simp at h
      | some key =>
          rw [buildOD_cons_some hko] at h
          refine ih (fun o' h' => hwf o' (List.mem_cons_of_mem _ h')) h ?_
          intro p hp
          rcases mem_of_mem_alSet hp with hp | hp
          · subst hp
            exact ⟨hko, hwf o (List.mem_cons_self _ _)⟩
          · exact hinv p hp

theorem buildOD_nodup {opts : List Dict} {od od' : OD}
    (h : buildOD opts od = some od') (hnd : (odKeys od).Nodup) :
    (odKeys od').Nodup := by
  induction opts generalizing od with
  | nil =>
      obtain rfl : od = od' := by simpa [buildOD] using h
      exact hnd
  | cons o rest ih =>
      cases hko : pyGet o "option" with
      | none => rw [buildOD_cons_none hko] at h; simp at h
      | some key =>
          rw [buildOD_cons_some hko] at h
          exact ih h (alKeys_alSet_nodup od key _ hnd)

theorem buildOD_isSome {opts : List Dict}
    (h : ∀ o ∈ opts, (pyGet o "option").isSome) :
    ∀ od, ∃ od', buildOD opts od = some od' := by
  induction opts with
  | nil => exact fun od => ⟨od, rfl⟩
  | cons o rest ih =>
      intro od
      obtain ⟨k, hk⟩ := Option.isSome_iff_exists.mp (h o (List.mem_cons_self _ _))
      obtain ⟨od', hod'⟩ := ih (fun o' h' => h o' (List.mem_cons_of_mem _ h'))
        (odSet od k o)
      exact ⟨od', by rw [buildOD_cons_some hk]; exact hod'⟩

/-! ## Slot evolution: fold form and idempotence -/

theorem mergeSlot_some_of_ne_nil {d : Dict} (hd : d ≠ []) (o : Dict) :
    mergeSlot (some d) o = dictUpdate d o := by
  cases d with
  | nil => exact absurd rfl hd
  | cons p rest => rfl

theorem mergeKeyVal_some_eq_foldl {d : Dict} (hd : d ≠ []) (os : List Dict) :
    mergeKeyVal (some d) os = some (os.foldl dictUpdate d) := by
  induction os generalizing d with
  | nil => rfl
  | cons o rest ih =>
      rw [mergeKeyVal_cons, mergeSlot_some_of_ne_nil hd,
        ih (dictUpdate_ne_nil hd o), List.foldl_cons]

theorem mergeKeyVal_idem (os : List Dict)
    (hos : ∀ o ∈ os, DictWF o ∧ o ≠ []) (cur : Option Dict)
    (hcur : ∀ d, cur = some d → DictWF d ∧ d ≠ []) :
    mergeKeyVal (mergeKeyVal cur os) os = mergeKeyVal cur os := by
  cases os with
  | nil => rfl
  | cons o rest =>
      have hwfall : ∀ o' ∈ o :: rest, DictWF o' := fun o' h => (hos o' h).1
      cases cur with
      | some d =>
          obtain ⟨hdwf, hdne⟩ := hcur d rfl
          rw [mergeKeyVal_some_eq_foldl hdne]
          have hDne := foldl_dictUpdate_ne_nil hdne (o :: rest)
          rw [mergeKeyVal_some_eq_foldl hDne,
            foldl_dictUpdate_idem (o :: rest) d hwfall hdwf]
      | none =>
          have hone := (hos o (List.mem_cons_self _ _)).2
          have h1 : mergeKeyVal none (o :: rest) = some (rest.foldl dictUpdate o) := by
            rw [mergeKeyVal_cons, show mergeSlot none o = o from rfl]
            exact mergeKeyVal_some_eq_foldl hone rest
          rw [h1]
          have hDne := foldl_dictUpdate_ne_nil hone rest
          rw [mergeKeyVal_some_eq_foldl hDne, foldl_dictUpdate_idem_cons o rest hwfall]

/-! ## Positional lemmas -/

theorem mem_alKeys_of_mem {κ β : Type} [DecidableEq κ]
    {l : List (κ × β)} {p : κ × β} (h : p ∈ l) : p.1 ∈ alKeys l :=
  List.mem_map_of_mem _ h

theorem alGet_of_mem_nodup {κ β : Type} [DecidableEq κ]
    {l : List (κ × β)} {k : κ} {v : β} (h : (k, v) ∈ l)
    (hnd : (alKeys l).Nodup) : alGet l k = some v := by
  induction l with
  | nil => simp at h
  | cons p rest ih =>
      obtain ⟨k₀, v₀⟩ := p
      rw [alKeys_cons] at hnd
      have hnd' := List.nodup_cons.mp hnd
      rcases List.mem_cons.mp h with h | h
      · obtain ⟨rfl, rfl⟩ := Prod.mk.injEq _ _ _ _ ▸ h
        rw [alGet_cons, if_pos rfl]
      · have hne : ¬k₀ = k := by
          intro hkk
          subst hkk
          exact hnd'.1 (mem_alKeys_of_mem h)
        rw [alGet_cons, if_neg hne]
        exact ih h hnd'.2

theorem alSet_eq_set_of_get? {κ β : Type} [DecidableEq κ]
    {l : List (κ × β)} {k : κ} {d : β} {i : ℕ}
    (hi : l.get? i = some (k, d)) (hnd : (alKeys l).Nodup) (v : β) :
    alSet l k v = l.set i (k, v) := by
  induction l generalizing i with
  | nil => simp at hi
  | cons p rest ih =>
      obtain ⟨k₀, v₀⟩ := p
      rw [alKeys_cons] at hnd
      have hnd' := List.nodup_cons.mp hnd
      cases i with
      | zero =>
          obtain ⟨rfl, rfl⟩ : k₀ = k ∧ v₀ = d := by
            have := hi
            simp only [List.get?] at this
            exact Prod.mk.injEq _ _ _ _ ▸ (by simpa using this)
          simp [alSet, List.set]
      | succ i' =>
          have hi' : rest.get? i' = some (k, d) := by simpa [List.get?] using hi
          have hk : k ∈ alKeys rest :=
            mem_alKeys_of_mem (List.get?_mem hi')
          have hne : ¬k₀ = k := by
            intro hkk
            subst hkk
            exact hnd'.1 hk
          simp only [alSet, if_neg hne, List.set]
          rw [ih hi' hnd'.2]

theorem pairUp_get? {opts : List Dict} {zs : OD}
    (h : pairUp opts = some zs) :
    ∀ i d, opts.get? i = some d →
      ∃ k, pyGet d "option" = some k ∧ zs.get? i = some (k, d) := by
  induction opts generalizing zs with
  | nil => intro i d hi; simp at hi
  | cons o rest ih =>
      cases hko : pyGet o "option" with
      | none => rw [pairUp_cons_none hko] at h; simp at h
      | some k =>
          rw [pairUp_cons_some hko] at h
          cases hrest : pairUp rest with
          | none => rw [hrest] at h; simp at h
          | some zs' =>
              rw [hrest] at h
              obtain rfl : (k, o) :: zs' = zs := by simpa using h
              intro i d hi
              cases i with
              | zero =>
                  obtain rfl : o = d := by simpa [List.get?] using hi
                  exact ⟨k, hko, rfl⟩
              | succ i' =>
                  have hi' : rest.get? i' = some d := by simpa [List.get?] using hi
                  obtain ⟨k', hk', hz⟩ := ih hrest i' d hi'
                  exact ⟨k', hk', by simpa [List.get?] using hz⟩

/-! ## The main merge theorems -/

theorem merge_eq_some {base ov : List Dict} {od0 od1 : OD}
    (hne : ov.isEmpty = false) (hb : buildOD base [] = some od0)
    (hm : mergeLoop od0 ov = some od1) :
    with_runner_overrides_merge base ov = some (od1.map (·.2)) := by
  rw [with_runner_overrides_merge, if_neg (by simp [hne]), hb, Option.some_bind,
    hm, Option.map_some']

theorem map_eq_filterMap_map_some {α β : Type} (f : α → Option β) (l : List α)
    (h : ∀ a ∈ l, (f a).isSome) : l.map f = (l.filterMap f).map some := by
  induction l with
  | nil => rfl
  | cons a rest ih =>
      obtain ⟨b, hb⟩ := Option.isSome_iff_exists.mp (h a (List.mem_cons_self _ _))
      rw [List.map_cons, List.filterMap_cons, hb, List.map_cons,
        ih (fun a' h' => h a' (List.mem_cons_of_mem _ h'))]

/-- The full behaviour of the merge on a base whose keys all exist and are
distinct: output keys are the base keys followed by the deduplicated new
override keys, and the length grows by exactly the number of new keys. -/
theorem merge_main {base ov : List Dict} {ks : List Val}
    (hbasewf : ∀ opt ∈ base, DictWF opt)
    (hks : base.map (fun o => pyGet o "option") = ks.map some)
    (hnodup : ks.Nodup)
    (hovwf : ∀ o ∈ ov, DictWF o)
    (hovkey : ∀ o ∈ ov, (pyGet o "option").isSome) :
    ∃ res, with_runner_overrides_merge base ov = some res ∧
      res.map (fun d => pyGet d "option") = ks.map some ++ (newKeys ks ov).map some ∧
      res.length = base.length + (newKeys ks ov).length := by
  have hbasekey : ∀ opt ∈ base, (pyGet opt "option").isSome := by
    intro opt hopt
    have hmem : pyGet opt "option" ∈ base.map (fun o => pyGet o "option") :=
      List.mem_map_of_mem _ hopt
    rw [hks] at hmem
    obtain ⟨k, _, hk⟩ := List.mem_map.mp hmem
    rw [← hk]
    rfl
  cases ov with
  | nil =>
      refine ⟨base, rfl, ?_, ?_⟩
      · rw [hks]
        simp [newKeys]
      · simp [newKeys]
  | cons o₀ ov' =>
      obtain ⟨zs, hz⟩ := pairUp_isSome hbasekey
      have hkeq : odKeys zs = ks := by
        apply List.map_injective_iff.mpr (Option.some_injective _)
        rw [← pairUp_map_keyO hz, hks]
      have hndz : (odKeys zs).Nodup := by rw [hkeq]; exact hnodup
      have hb : buildOD base [] = some zs := by
        have := buildOD_of_fresh hz [] (by simpa using hndz)
        simpa using this
      obtain ⟨od1, hm⟩ := mergeLoop_isSome (o₀ :: ov') hovkey zs
      refine ⟨od1.map (·.2), merge_eq_some (by simp) hb hm, ?_, ?_⟩
      · have hinv : SlotInv od1 :=
          mergeLoop_slotInv hovwf hm (pairUp_slotInv hbasewf hz)
        have hkeys1 : odKeys od1 = ks ++ newKeys ks (o₀ :: ov') := by
          rw [mergeLoop_keys hm, hkeq]
        rw [List.map_map]
        have : od1.map (fun p => pyGet p.2 "option") = od1.map (fun p => some p.1) :=
          List.map_congr_left (fun p hp => (hinv p hp).1)
        rw [show (fun d => pyGet d "option") ∘ (fun p : Val × Dict => p.2)
            = fun p : Val × Dict => pyGet p.2 "option" from rfl, this]
        rw [show od1.map (fun p : Val × Dict => some p.1) = (odKeys od1).map some by
          rw [odKeys, alKeys, List.map_map]; rfl]
        rw [hkeys1, List.map_append]
      · have hlen1 : od1.length = (odKeys od1).length := by
          rw [odKeys, alKeys, List.length_map]
        have hlenz : zs.length = base.length := by
          rw [← pairUp_values hz, List.length_map]
        have hlenzk : zs.length = ks.length := by
          rw [← hkeq, odKeys, alKeys, List.length_map]
        rw [List.length_map, hlen1, mergeLoop_keys hm, hkeq, List.length_append,
          ← hlenzk, hlenz]

/-- C4: merging with an empty override list (a runner whose
`system_options_override` is empty, hence falsy) returns the base list
unchanged: the merge body is skipped entirely. -/
theorem merge_empty_override_identity (options : List Dict) :
    with_runner_overrides_merge options [] = some options := rfl

/-- C1: on a base whose descriptors have unique non-empty keys and an
override list whose keys all occur in the base, the merge succeeds and
returns a list of the same length with the same keys in the same order. -/
theorem merge_subset_keys_preserves_order (base ov : List Dict)
    (hbase : ∀ opt ∈ base, DictWF opt ∧
      ∃ s, s ≠ "" ∧ pyGet opt "option" = some (Val.str s))
    (hnodup : (base.map (fun o => pyGet o "option")).Nodup)
    (hov : ∀ o ∈ ov, DictWF o ∧ ∃ k, pyGet o "option" = some k ∧
      some k ∈ base.map (fun o' => pyGet o' "option")) :
    ∃ res, with_runner_overrides_merge base ov = some res ∧
      res.length = base.length ∧
      res.map (fun d => pyGet d "option") = base.map (fun d => pyGet d "option") := by
  have hbasewf : ∀ opt ∈ base, DictWF opt := fun opt h => (hbase opt h).1
  have hbasekey : ∀ opt ∈ base, (pyGet opt "option").isSome := by
    intro opt h
    obtain ⟨s, _, hs⟩ := (hbase opt h).2
    rw [hs]
    rfl
  have hks : base.map (fun o => pyGet o "option")
      = (base.filterMap (fun o => pyGet o "option")).map some :=
    map_eq_filterMap_map_some _ base hbasekey
  have hksnd : (base.filterMap (fun o => pyGet o "option")).Nodup :=
    List.Nodup.of_map some (by rw [← hks]; exact hnodup)
  have hovwf : ∀ o ∈ ov, DictWF o := fun o h => (hov o h).1
  have hovkey : ∀ o ∈ ov, (pyGet o "option").isSome := by
    intro o h
    obtain ⟨k, hk, _⟩ := (hov o h).2
    rw [hk]
    rfl
  have hnew : newKeys (base.filterMap (fun o => pyGet o "option")) ov = [] := by
    apply newKeys_eq_nil
    intro o ho k hk
    obtain ⟨k', hk', hmem⟩ := (hov o ho).2
    obtain rfl : k' = k := by rw [hk'] at hk; exact Option.some.inj hk
    rw [hks] at hmem
    obtain ⟨a, ha, hak⟩ := List.mem_map.mp hmem
    rwa [← Option.some.inj hak]
  obtain ⟨res, hres, hmap, hlen⟩ := merge_main hbasewf hks hksnd hovwf hovkey
  refine ⟨res, hres, ?_, ?_⟩
  · rw [hlen, hnew]
    rfl
  · rw [hmap, hnew, hks]
    simp

/-- C2: on a base with unique keys and an arbitrary override list, the
merge appends the deduplicated new keys, in override order, after all base
entries; the output length is the base length plus the number of distinct
new keys. -/
theorem merge_appends_new_keys (base ov : List Dict)
    (hbase : ∀ opt ∈ base, DictWF opt ∧ (pyGet opt "option").isSome)
    (hnodup : (base.map (fun o => pyGet o "option")).Nodup)
    (hov : ∀ o ∈ ov, DictWF o ∧ (pyGet o "option").isSome) :
    ∃ ks res, base.map (fun o => pyGet o "option") = ks.map some ∧
      with_runner_overrides_merge base ov = some res ∧
      res.length = base.length + (newKeys ks ov).length ∧
      res.map (fun d => pyGet d "option")
        = base.map (fun d => pyGet d "option") ++ (newKeys ks ov).map some := by
  have hbasewf : ∀ opt ∈ base, DictWF opt := fun opt h => (hbase opt h).1
  have hbasekey : ∀ opt ∈ base, (pyGet opt "option").isSome :=
    fun opt h => (hbase opt h).2
  have hks : base.map (fun o => pyGet o "option")
      = (base.filterMap (fun o => pyGet o "option")).map some :=
    map_eq_filterMap_map_some _ base hbasekey
  have hksnd : (base.filterMap (fun o => pyGet o "option")).Nodup :=
    List.Nodup.of_map some (by rw [← hks]; exact hnodup)
  obtain ⟨res, hres, hmap, hlen⟩ :=
    merge_main hbasewf hks hksnd (fun o h => (hov o h).1) (fun o h => (hov o h).2)
  exact ⟨base.filterMap (fun o => pyGet o "option"), res, hks, hres, hlen,
    by rw [hmap, hks]⟩

/-- C5: the merge is idempotent in its override argument: running the
merge a second time, on its own output, with the same override list,
returns that output unchanged. -/
theorem merge_idempotent (base ov : List Dict)
    (hbase : ∀ opt ∈ base, DictWF opt ∧ (pyGet opt "option").isSome)
    (hov : ∀ o ∈ ov, DictWF o ∧ (pyGet o "option").isSome) :
    ∃ res, with_runner_overrides_merge base ov = some res ∧
      with_runner_overrides_merge res ov = some res := by
  cases hov0 : ov with
  | nil => exact ⟨base, rfl, rfl⟩
  | cons o₀ ov' =>
      rw [← hov0]
      have hovwf : ∀ o ∈ ov, DictWF o := fun o h => (hov o h).1
      have hovkey : ∀ o ∈ ov, (pyGet o "option").isSome := fun o h => (hov o h).2
      have hovne : ov.isEmpty = false := by rw [hov0]; rfl
      obtain ⟨od0, hb⟩ := buildOD_isSome (fun o h => (hbase o h).2) []
      have hinv0 : SlotInv od0 :=
        buildOD_slotInv (fun o h => (hbase o h).1) hb (by intro p hp; simp at hp)
      have hnd0 : (odKeys od0).Nodup := buildOD_nodup hb (by simp [odKeys, alKeys])
      obtain ⟨od1, hm⟩ := mergeLoop_isSome ov hovkey od0
      have hinv1 : SlotInv od1 := mergeLoop_slotInv hovwf hm hinv0
      have hnd1 : (odKeys od1).Nodup := mergeLoop_nodup hm hnd0
      refine ⟨od1.map (·.2), merge_eq_some hovne hb hm, ?_⟩
      have hb2 : buildOD (od1.map (·.2)) [] = some od1 := by
        have := buildOD_of_fresh (pairUp_of_slotInv hinv1) [] (by simpa using hnd1)
        simpa using this
      obtain ⟨od2, hm2⟩ := mergeLoop_isSome ov hovkey od1
      have hod21 : od2 = od1 := by
        apply al_ext od2 od1
        · show odKeys od2 = odKeys od1
          rw [mergeLoop_keys hm2,
            newKeys_eq_nil (fun o ho k hk => mergeLoop_ov_keys hm o ho k hk)]
          simp
        · show (odKeys od2).Nodup
          rw [mergeLoop_keys hm2,
            newKeys_eq_nil (fun o ho k hk => mergeLoop_ov_keys hm o ho k hk)]
          simpa using hnd1
        · intro k
          show odGet od2 k = odGet od1 k
          rw [mergeLoop_get hm2 k, mergeLoop_get hm k]
          apply mergeKeyVal_idem
          · intro o ho
            have hmem := List.mem_of_mem_filter ho
            obtain ⟨k', hk'⟩ := Option.isSome_iff_exists.mp (hovkey o hmem)
            exact ⟨hovwf o hmem, pyGet_ne_nil hk'⟩
          · intro d hd
            obtain ⟨hopt, hwf⟩ := hinv0 (k, d) (mem_of_alGet_eq_some hd)
            exact ⟨hwf, pyGet_ne_nil hopt⟩
      rw [merge_eq_some hovne hb2 hm2, hod21]

/-- C3: an override whose key exists in the base replaces exactly the
fields it names and keeps every other field of the base descriptor, at the
base descriptor's position; and on the spec's concrete example the merge
returns exactly the predicted list. -/
theorem merge_field_level_override :
    (∀ (base : List Dict) (o d : Dict) (k : Val) (i : ℕ),
      (∀ opt ∈ base, DictWF opt ∧ (pyGet opt "option").isSome) →
      (base.map (fun o' => pyGet o' "option")).Nodup →
      DictWF o → pyGet o "option" = some k →
      base.get? i = some d → pyGet d "option" = some k →
      ∃ res, with_runner_overrides_merge base [o] = some res ∧
        res.length = base.length ∧
        ∃ e, res.get? i = some e ∧
          (∀ f v, pyGet o f = some v → pyGet e f = some v) ∧
          (∀ f, pyGet o f = none → pyGet e f = pyGet d f)) ∧
    with_runner_overrides_merge
        [[("option", Val.str "a"), ("v", Val.int 1)],
         [("option", Val.str "b"), ("v", Val.int 2)],
         [("option", Val.str "c"), ("v", Val.int 3)]]
        [[("option", Val.str "b"), ("v", Val.int 99)],
         [("option", Val.str "d"), ("v", Val.int 4)]]
      = some
        [[("option", Val.str "a"), ("v", Val.int 1)],
         [("option", Val.str "b"), ("v", Val.int 99)],
         [("option", Val.str "c"), ("v", Val.int 3)],
         [("option", Val.str "d"), ("v", Val.int 4)]] := by
  constructor
  · intro base o d k i hbase hnodup howf hok hi hdk
    have hbasewf : ∀ opt ∈ base, DictWF opt := fun opt h => (hbase opt h).1
    have hbasekey : ∀ opt ∈ base, (pyGet opt "option").isSome :=
      fun opt h => (hbase opt h).2
    obtain ⟨zs, hz⟩ := pairUp_isSome hbasekey
    have hndz : (odKeys zs).Nodup := by
      apply List.Nodup.of_map some
      rw [← pairUp_map_keyO hz]
      exact hnodup
    have hb : buildOD base [] = some zs := by
      have := buildOD_of_fresh hz [] (by simpa using hndz)
      simpa using this
    obtain ⟨k', hk', hzi⟩ := pairUp_get? hz i d hi
    have hkk : k' = k := by rw [hk'] at hdk; exact Option.some.inj hdk
    rw [hkk] at hzi
    have hdget : odGet zs k = some d :=
      alGet_of_mem_nodup (List.get?_mem hzi) hndz
    have hdnn : d ≠ [] := pyGet_ne_nil hdk
    have hm : mergeLoop zs [o] = some (odSet zs k (dictUpdate d o)) := by
      rw [mergeLoop_cons_some hok, hdget, mergeSlot_some_of_ne_nil hdnn]
      rfl
    have hset : odSet zs k (dictUpdate d o) = zs.set i (k, dictUpdate d o) :=
      alSet_eq_set_of_get? hzi hndz (dictUpdate d o)
    refine ⟨(odSet zs k (dictUpdate d o)).map (·.2),
      merge_eq_some (by simp) hb hm, ?_, dictUpdate d o, ?_, ?_, ?_⟩
    · rw [hset, List.length_map, List.length_set, ← pairUp_values hz,
        List.length_map]
    · rw [hset, List.get?_map, List.get?_set, if_pos rfl, hzi]
      rfl
    · intro f v hf
      exact pyGet_dictUpdate_of_some howf hf d
    · intro f hf
      exact pyGet_dictUpdate_of_none hf d
  · decide

/-! ## Discovery-function theorems -/

/-- C6: when every probed executable is absent, every Vulkan data
directory is empty, and the vendor probe's output names no vendor (as when
`glxinfo` itself is missing and the shell prints an error), all four
discovery functions still return a value — they are total Lean functions,
modelling "never raise" — and each output contains its sentinel entry. -/
theorem discovery_absent_graceful (env : Env)
    (hexe : ∀ s, env.findExecutable s = false)
    (hglob : ∀ dir, env.globJson dir = [])
    (hglx : ∀ c, pyIn "Intel" (env.glxinfoOutput c) = false ∧
      pyIn "AMD" (env.glxinfoOutput c) = false ∧
      pyIn "NVIDIA" (env.glxinfoOutput c) = false) :
    ("Off", "off") ∈ get_optirun_choices env ∧
    ("Auto: WARNING -- No Vulkan Loader detected!", "") ∈ get_vk_icd_choices env ∧
    ("Keep current", "off") ∈ get_resolution_choices env ∧
    ("Off", "off") ∈ get_output_choices env := by
  refine ⟨?_, ?_, ?_, ?_⟩
  · simp [get_optirun_choices]
  · have hfiles : vkLoaderFiles env = ⟨[], [], [], [], []⟩ := by
      rw [vkLoaderFiles, VULKAN_DATA_DIRS]
      simp [hglob]
    have h1 : ∀ c, pyIn "Intel" (env.glxinfoOutput c) = false := fun c => (hglx c).1
    have h2 : ∀ c, pyIn "AMD" (env.glxinfoOutput c) = false := fun c => (hglx c).2.1
    have h3 : ∀ c, pyIn "NVIDIA" (env.glxinfoOutput c) = false := fun c => (hglx c).2.2
    have hic : String.intercalate ":" ([] : List String) = "" := rfl
    have hie : ("" : String).isEmpty = true := rfl
    simp [get_vk_icd_choices, vkDefaultGpu, hfiles, hic, hie, h1, h2, h3]
  · simp [get_resolution_choices]
  · simp [get_output_choices]

/-- C7 as stated is false on `envIntel`: a GPU vendor is detected, yet the
output of `get_vk_icd_choices` does not begin with the sentinel entry —
the sentinel is replaced by the vendor's auto entry and does not occur in
the output at all. -/
theorem vk_icd_sentinel_replaced_counterexample :
    pyIn "Intel" (vkDefaultGpu envIntel) = true ∧
    (get_vk_icd_choices envIntel).head? ≠
      some ("Auto: WARNING -- No Vulkan Loader detected!", "") ∧
    ("Auto: WARNING -- No Vulkan Loader detected!", "") ∉
      get_vk_icd_choices envIntel := by
  decide

/-- C7 (amended): each discovery function puts its sentinel/default entry
first — "Keep current" for resolutions, "Off" (then "Primary") for
outputs, "Off" for the Optimus launchers — and `get_vk_icd_choices`
begins with the detected vendor's auto entry, which replaces the initial
warning sentinel, when a vendor is detected; the warning sentinel is first
only when no vendor is detected.  Discovered options follow the first
entry. -/
theorem choices_sentinel_first_amended (env : Env) :
    (get_resolution_choices env).head? = some ("Keep current", "off") ∧
    (get_output_choices env).head? = some ("Off", "off") ∧
    (get_optirun_choices env).head? = some ("Off", "off") ∧
    (pyIn "Intel" (vkDefaultGpu env) = true →
      (get_vk_icd_choices env).head? =
        some ("Auto: Intel Open Source (MESA: ANV)",
          String.intercalate ":" (vkLoaderFiles env).intel)) ∧
    (pyIn "Intel" (vkDefaultGpu env) = false →
      pyIn "AMD" (vkDefaultGpu env) = true →
      (get_vk_icd_choices env).head? =
        some ("Auto: AMD RADV Open Source (MESA: RADV)",
          String.intercalate ":" (vkLoaderFiles env).amdradv)) ∧
    (pyIn "Intel" (vkDefaultGpu env) = false →
      pyIn "AMD" (vkDefaultGpu env) = false →
      pyIn "NVIDIA" (vkDefaultGpu env) = true →
      (get_vk_icd_choices env).head? =
        some ("Auto: Nvidia Proprietary",
          String.intercalate ":" (vkLoaderFiles env).nvidia)) ∧
    (pyIn "Intel" (vkDefaultGpu env) = false →
      pyIn "AMD" (vkDefaultGpu env) = false →
      pyIn "NVIDIA" (vkDefaultGpu env) = false →
      (get_vk_icd_choices env).head? =
        some ("Auto: WARNING -- No Vulkan Loader detected!", "")) := by
  refine ⟨rfl, rfl, ?_, ?_, ?_, ?_, ?_⟩
  · simp [get_optirun_choices]
  · intro hI
    simp [get_vk_icd_choices, hI]
  · intro hI hA
    simp [get_vk_icd_choices, hI, hA]
  · intro hI hA hN
    simp [get_vk_icd_choices, hI, hA, hN]
  · intro hI hA hN
    simp [get_vk_icd_choices, hI, hA, hN]

/-! ## Substring helper lemmas -/

theorem leadMatch_append (n rest : List Char) : leadMatch n (n ++ rest) = true := by
  induction n with
  | nil => rfl
  | cons c t ih => simp [leadMatch, ih]

theorem subAt_append_mid (n p q : List Char) : subAt n (p ++ (n ++ q)) = true := by
  induction p with
  | nil =>
      cases n with
      | nil =>
          cases q with
          | nil => rfl
          | cons c t => rfl
      | cons c t =>
          show (leadMatch (c :: t) ((c :: t) ++ q) || subAt (c :: t) (t ++ q)) = true
          rw [leadMatch_append, Bool.true_or]
  | cons c p' ih =>
      show (leadMatch n (c :: (p' ++ (n ++ q))) || subAt n (p' ++ (n ++ q))) = true
      rw [ih, Bool.or_true]

theorem pyIn_mid (s p q : String) : pyIn s (p ++ s ++ q) = true := by
  rw [pyIn]
  have h : (p ++ s ++ q).toList = p.toList ++ (s.toList ++ q.toList) := by
    show (p ++ s ++ q).data = p.data ++ (s.data ++ q.data)
    rw [String.data_append, String.data_append, List.append_assoc]
  rw [h]
  exact subAt_append_mid s.toList p.toList q.toList

/-! ## Script-validation theorems -/

theorem pyGet_fixItem_ne {s : Script} {item f : String} (h : ¬item = f) :
    pyGet (fixItem s item) f = pyGet s f := by
  rw [fixItem, pyGet_dictSet, if_neg h]

theorem pyGet_fixScript_required {s : Script} {f : String}
    (hf : f ∈ REQUIRED_FIELDS) : pyGet (fixScript s) f = pyGet s f := by
  have hcases : f = "name" ∨ f = "runner" ∨ f = "version" := by
    simpa [REQUIRED_FIELDS] using hf
  have hd : ¬"description" = f := by
    rcases hcases with rfl | rfl | rfl <;> decide
  have hn : ¬"notes" = f := by
    rcases hcases with rfl | rfl | rfl <;> decide
  rw [fixScript, pyGet_fixItem_ne hn, pyGet_fixItem_ne hd]

theorem firstMissing_some_spec {f : Script} {fld : String}
    (h : firstMissing f = some fld) :
    fld ∈ REQUIRED_FIELDS ∧ pyGet f fld = none := by
  rw [firstMissing] at h
  by_cases h1 : (pyGet f "name").isNone
  · rw [if_pos h1] at h
    obtain rfl : "name" = fld := Option.some.inj h
    exact ⟨by simp [REQUIRED_FIELDS], Option.isNone_iff_eq_none.mp h1⟩
  · rw [if_neg h1] at h
    by_cases h2 : (pyGet f "runner").isNone
    · rw [if_pos h2] at h
      obtain rfl : "runner" = fld := Option.some.inj h
      exact ⟨by simp [REQUIRED_FIELDS], Option.isNone_iff_eq_none.mp h2⟩
    · rw [if_neg h2] at h
      by_cases h3 : (pyGet f "version").isNone
      · rw [if_pos h3] at h
        obtain rfl : "version" = fld := Option.some.inj h
        exact ⟨by simp [REQUIRED_FIELDS], Option.isNone_iff_eq_none.mp h3⟩
      · rw [if_neg h3] at h
        simp at h

theorem firstMissing_none_spec {f : Script} (h : firstMissing f = none) :
    ∀ fld ∈ REQUIRED_FIELDS, pyGet f fld ≠ none := by
  rw [firstMissing] at h
  intro fld hfld
  have hcases : fld = "name" ∨ fld = "runner" ∨ fld = "version" := by
    simpa [REQUIRED_FIELDS] using hfld
  by_cases h1 : (pyGet f "name").isNone
  · rw [if_pos h1] at h
    simp at h
  · rw [if_neg h1] at h
    by_cases h2 : (pyGet f "runner").isNone
    · rw [if_pos h2] at h
      simp at h
    · rw [if_neg h2] at h
      by_cases h3 : (pyGet f "version").isNone
      · rw [if_pos h3] at h
        simp at h
      · rcases hcases with rfl | rfl | rfl
        · exact fun hn => h1 (by rw [hn]; rfl)
        · exact fun hn => h2 (by rw [hn]; rfl)
        · exact fun hn => h3 (by rw [hn]; rfl)

theorem validateLoop_cons (s₀ : Script) (rest : List Script) :
    validateLoop (s₀ :: rest) =
      match firstMissing (fixScript s₀) with
      | some item => Except.error (missingFieldMsg item)
      | none => (validateLoop rest).map (fun v => fixScript s₀ :: v) := rfl

theorem validateLoop_error {installers : List Script} {s : Script} {item : String}
    (hs : s ∈ installers) (hitem : item ∈ REQUIRED_FIELDS)
    (hmiss : pyGet s item = none) :
    ∃ msg fld s', validateLoop installers = Except.error msg ∧
      fld ∈ REQUIRED_FIELDS ∧ s' ∈ installers ∧ pyGet s' fld = none ∧
      msg = missingFieldMsg fld := by
  induction installers with
  | nil => simp at hs
  | cons s₀ rest ih =>
      cases hfm : firstMissing (fixScript s₀) with
      | some fld =>
          obtain ⟨hfr, hfnone⟩ := firstMissing_some_spec hfm
          rw [pyGet_fixScript_required hfr] at hfnone
          refine ⟨missingFieldMsg fld, fld, s₀, ?_, hfr,
            List.mem_cons_self _ _, hfnone, rfl⟩
          rw [validateLoop_cons, hfm]
      | none =>
          have hsrest : s ∈ rest := by
            rcases List.mem_cons.mp hs with h | h
            · subst h
              have := firstMissing_none_spec hfm item hitem
              rw [pyGet_fixScript_required hitem] at this
              exact absurd hmiss this
            · exact h
          obtain ⟨msg, fld, s', hloop, hfr, hs', hnone, hmsg⟩ := ih hsrest
          refine ⟨msg, fld, s', ?_, hfr, List.mem_cons_of_mem _ hs', hnone, hmsg⟩
          rw [validateLoop_cons, hfm, hloop]
          rfl

/-- C8: when any script in the list is missing one of the required fields
`"name"`, `"runner"`, `"version"`, validation raises a `ScriptingError`
whose message names a field that is indeed missing from one of the
scripts, and window construction aborts with that same error instead of
proceeding to installer selection. -/
theorem validate_scripts_missing_field (installers : List Script)
    (s : Script) (item : String) (hs : s ∈ installers)
    (hitem : item ∈ REQUIRED_FIELDS) (hmiss : pyGet s item = none) :
    ∃ msg fld s', validate_scripts installers = Except.error msg ∧
      installer_window_init installers = Except.error msg ∧
      fld ∈ REQUIRED_FIELDS ∧ s' ∈ installers ∧ pyGet s' fld = none ∧
      msg = missingFieldMsg fld ∧ pyIn fld msg = true := by
  obtain ⟨msg, fld, s', hloop, hfr, hs', hnone, hmsg⟩ :=
    validateLoop_error hs hitem hmiss
  have hne : installers.isEmpty = false := by
    cases installers with
    | nil => simp at hs
    | cons a t => rfl
  have hval : validate_scripts installers = Except.error msg := by
    rw [validate_scripts, if_neg (by simp [hne])]
    exact hloop
  refine ⟨msg, fld, s', hval, ?_, hfr, hs', hnone, hmsg, ?_⟩
  · rw [installer_window_init, hval]
  · rw [hmsg, missingFieldMsg]
    have : "Missing field \x22" ++ fld ++ "\x22 in install script"
        = "Missing field \x22" ++ fld ++ "\x22 in install script" := rfl
    exact pyIn_mid fld "Missing field \x22" "\x22 in install script"

/-- C9: when `file_box.start_all()` raises `PermissionError`, the handler
re-enables the continue button, leaves the continue handler connected
(the `disconnect` call is never reached), and raises a `ScriptingError`
whose message is the permission error's message appended to
"Unable to get files: ". -/
theorem on_files_confirmed_permission (st : FilesState) (msg : String) :
    on_files_confirmed st (StartAllResult.permissionError msg)
      = ({ status := "", continueSensitive := true,
           continueConnected := st.continueConnected },
         some ("Unable to get files: " ++ msg)) ∧
    pyIn msg ("Unable to get files: " ++ msg) = true := by
  constructor
  · rfl
  · have h : "Unable to get files: " ++ msg
        = "Unable to get files: " ++ msg ++ "" := by simp
    rw [h]
    exact pyIn_mid msg "Unable to get files: " ""

/-! ## Frame theorems for the heap model -/

theorem set_append_self_length {α : Type} (l : List α) (x y : α) :
    (l ++ [x]).set l.length y = l ++ [y] := by
  induction l with
  | nil => rfl
  | cons a t ih => simp [List.set, ih]

theorem mergeStepH_frame {h : Heap} {od : ODA} {oa : Addr} {h' : Heap}
    {od' : ODA} (hs : mergeStepH h od oa = some (h', od')) :
    h.dicts.length ≤ h'.dicts.length ∧
      ∀ a, a < h.dicts.length → h'.get? a = h.get? a := by
  rw [mergeStepH] at hs
  cases ho : h.get? oa with
  | none => rw [ho] at hs; simp at hs
  | some o =>
      rw [ho, Option.some_bind] at hs
      cases hk : pyGet o "option" with
      | none => rw [hk] at hs; simp at hs
      | some key =>
          rw [hk, Option.some_bind] at hs
          cases hda : alGet od key with
          | none =>
              rw [hda, Option.elim_none] at hs
              obtain ⟨rfl, rfl⟩ : h = h' ∧ alSet od key oa = od' := by
                simpa using hs
              exact ⟨Nat.le_refl _, fun a _ => rfl⟩
          | some da =>
              rw [hda, Option.elim_some] at hs
              cases hd : h.get? da with
              | none => rw [hd] at hs; simp at hs
              | some d =>
                  rw [hd, Option.map_some'] at hs
                  by_cases he : d.isEmpty
                  · rw [if_pos he] at hs
                    obtain ⟨rfl, rfl⟩ : h = h' ∧ alSet od key oa = od' := by
                      simpa using hs
                    exact ⟨Nat.le_refl _, fun a _ => rfl⟩
                  · rw [if_neg he] at hs
                    obtain ⟨hh, _⟩ :
                        (h.alloc d).1.set (h.alloc d).2 (dictUpdate d o) = h' ∧
                          alSet od key (h.alloc d).2 = od' := by
                      simpa using hs
                    have hdicts : h'.dicts = h.dicts ++ [dictUpdate d o] := by
                      rw [← hh, Heap.alloc, Heap.set]
                      exact set_append_self_length h.dicts d (dictUpdate d o)
                    constructor
                    · rw [hdicts, List.length_append]
                      exact Nat.le_add_right _ _
                    · intro a ha
                      rw [Heap.get?, Heap.get?, hdicts, List.get?_append ha]

theorem mergeLoopH_frame (ovs : List Addr) (h : Heap) (od : ODA)
    {h' : Heap} {od' : ODA} (hrun : mergeLoopH h od ovs = some (h', od')) :
    h.dicts.length ≤ h'.dicts.length ∧
      ∀ a, a < h.dicts.length → h'.get? a = h.get? a := by
  induction ovs generalizing h od with
  | nil =>
      obtain ⟨rfl, rfl⟩ : h = h' ∧ od = od' := by
        simpa [mergeLoopH] using hrun
      exact ⟨Nat.le_refl _, fun a _ => rfl⟩
  | cons oa rest ih =>
      rw [show mergeLoopH h od (oa :: rest)
          = (mergeStepH h od oa).bind (fun p => mergeLoopH p.1 p.2 rest)
          from rfl] at hrun
      cases hstep : mergeStepH h od oa with
      | none => rw [hstep] at hrun; simp at hrun
      | some p =>
          rw [hstep, Option.some_bind] at hrun
          obtain ⟨hle1, hfr1⟩ :=
            mergeStepH_frame (show mergeStepH h od oa = some (p.1, p.2) by
              rw [hstep])
          obtain ⟨hle2, hfr2⟩ := ih p.1 p.2 hrun
          refine ⟨Nat.le_trans hle1 hle2, fun a ha => ?_⟩
          rw [hfr2 a (Nat.lt_of_lt_of_le ha hle1), hfr1 a ha]

/-- C10: the merge never mutates the base `system_options` descriptors
(nor any other pre-existing heap object): every overridden descriptor is
copied first, and only the fresh copy is updated; the result is a fresh
list, so after any call every pre-existing address still holds exactly the
dictionary it held before. -/
theorem with_runner_overridesH_no_mutation (h : Heap)
    (options overrides : List Addr) {h' : Heap} {res : List Addr}
    (hrun : with_runner_overridesH h options overrides = some (h', res)) :
    ∀ a, a < h.dicts.length → h'.get? a = h.get? a := by
  cases overrides with
  | nil =>
      obtain ⟨rfl, rfl⟩ : h = h' ∧ options = res := by
        simpa [with_runner_overridesH] using hrun
      exact fun a _ => rfl
  | cons oa rest =>
      rw [with_runner_overridesH, if_neg (by simp)] at hrun
      cases hb : buildODH h options [] with
      | none => rw [hb] at hrun; simp at hrun
      | some od0 =>
          rw [hb, Option.some_bind] at hrun
          cases hm : mergeLoopH h od0 (oa :: rest) with
          | none => rw [hm] at hrun; simp at hrun
          | some p =>
              rw [hm, Option.map_some'] at hrun
              obtain ⟨hph, _⟩ : p.1 = h' ∧ p.2.map (·.2) = res := by
                simpa using hrun
              intro a ha
              rw [← hph]
              exact (mergeLoopH_frame (oa :: rest) h od0
                (show mergeLoopH h od0 (oa :: rest) = some (p.1, p.2) by
                  rw [hm])).2 a ha

/-! ## Witnesses -/

theorem merge_subset_keys_preserves_order_witness :
    ∃ res, with_runner_overrides_merge baseEx
        [[("option", Val.str "b"), ("v", Val.int 99)]] = some res ∧
      res.length = baseEx.length ∧
      res.map (fun d => pyGet d "option")
        = baseEx.map (fun d => pyGet d "option") :=
  merge_subset_keys_preserves_order baseEx
    [[("option", Val.str "b"), ("v", Val.int 99)]]
    (by
      intro opt hopt
      rw [baseEx] at hopt
      rcases List.mem_cons.mp hopt with rfl | hopt
      · exact ⟨by decide, "a", by decide, rfl⟩
      rcases List.mem_cons.mp hopt with rfl | hopt
      · exact ⟨by decide, "b", by decide, rfl⟩
      rcases List.mem_cons.mp hopt with rfl | hopt
      · exact ⟨by decide, "c", by decide, rfl⟩
      · simp at hopt)
    (by decide)
    (by
      intro o ho
      rcases List.mem_cons.mp ho with rfl | ho
      · exact ⟨by decide, Val.str "b", rfl, by decide⟩
      · simp at ho)

theorem merge_appends_new_keys_witness :
    ∃ ks res, baseEx.map (fun o => pyGet o "option") = ks.map some ∧
      with_runner_overrides_merge baseEx ovEx = some res ∧
      res.length = baseEx.length + (newKeys ks ovEx).length ∧
      res.map (fun d => pyGet d "option")
        = baseEx.map (fun d => pyGet d "option") ++ (newKeys ks ovEx).map some :=
  merge_appends_new_keys baseEx ovEx (by decide) (by decide) (by decide)

theorem merge_field_level_override_witness :
    ∃ res, with_runner_overrides_merge baseEx
        [[("option", Val.str "b"), ("v", Val.int 99)]] = some res ∧
      res.length = baseEx.length ∧
      ∃ e, res.get? 1 = some e ∧
        (∀ f v, pyGet [("option", Val.str "b"), ("v", Val.int 99)] f = some v →
          pyGet e f = some v) ∧
        (∀ f, pyGet [("option", Val.str "b"), ("v", Val.int 99)] f = none →
          pyGet e f = pyGet [("option", Val.str "b"), ("v", Val.int 2)] f) :=
  merge_field_level_override.1 baseEx
    [("option", Val.str "b"), ("v", Val.int 99)]
    [("option", Val.str "b"), ("v", Val.int 2)]
    (Val.str "b") 1 (by decide) (by decide) (by decide) (by decide)
    (by decide) (by decide)

theorem merge_idempotent_witness :
    ∃ res, with_runner_overrides_merge baseEx ovEx = some res ∧
      with_runner_overrides_merge res ovEx = some res :=
  merge_idempotent baseEx ovEx (by decide) (by decide)

theorem discovery_absent_graceful_witness :
    ("Off", "off") ∈ get_optirun_choices envAbsent ∧
    ("Auto: WARNING -- No Vulkan Loader detected!", "") ∈
      get_vk_icd_choices envAbsent ∧
    ("Keep current", "off") ∈ get_resolution_choices envAbsent ∧
    ("Off", "off") ∈ get_output_choices envAbsent :=
  discovery_absent_graceful envAbsent (fun _ => rfl) (fun _ => rfl)
    (fun c => ⟨rfl, rfl, rfl⟩)

theorem choices_sentinel_first_amended_witness :
    pyIn "Intel" (vkDefaultGpu envIntel) = true ∧
    (get_vk_icd_choices envIntel).head? =
      some ("Auto: Intel Open Source (MESA: ANV)",
        String.intercalate ":" (vkLoaderFiles envIntel).intel) :=
  ⟨by decide, (choices_sentinel_first_amended envIntel).2.2.2.1 (by decide)⟩

theorem validate_scripts_missing_field_witness :
    ∃ msg fld s',
      validate_scripts [[("name", Val.str "G"), ("version", Val.str "1")]]
        = Except.error msg ∧
      installer_window_init [[("name", Val.str "G"), ("version", Val.str "1")]]
        = Except.error msg ∧
      fld ∈ REQUIRED_FIELDS ∧
      s' ∈ [[("name", Val.str "G"), ("version", Val.str "1")]] ∧
      pyGet s' fld = none ∧ msg = missingFieldMsg fld ∧ pyIn fld msg = true :=
  validate_scripts_missing_field
    [[("name", Val.str "G"), ("version", Val.str "1")]]
    [("name", Val.str "G"), ("version", Val.str "1")]
    "runner" (by decide) (by decide) (by decide)

theorem with_runner_overridesH_no_mutation_witness :
    0 < (Heap.mk [[("option", Val.str "a"), ("x", Val.int 1)],
        [("option", Val.str "a"), ("x", Val.int 2)]]).dicts.length ∧
    (Heap.mk [[("option", Val.str "a"), ("x", Val.int 1)],
        [("option", Val.str "a"), ("x", Val.int 2)],
        [("option", Val.str "a"), ("x", Val.int 2)]]).get? 0
      = (Heap.mk [[("option", Val.str "a"), ("x", Val.int 1)],
        [("option", Val.str "a"), ("x", Val.int 2)]]).get? 0 :=
  ⟨by decide,
    with_runner_overridesH_no_mutation
      ⟨[[("option", Val.str "a"), ("x", Val.int 1)],
        [("option", Val.str "a"), ("x", Val.int 2)]]⟩ [0] [1]
      (show with_runner_overridesH
          ⟨[[("option", Val.str "a"), ("x", Val.int 1)],
            [("option", Val.str "a"), ("x", Val.int 2)]]⟩ [0] [1]
        = some (⟨[[("option", Val.str "a"), ("x", Val.int 1)],
            [("option", Val.str "a"), ("x", Val.int 2)],
            [("option", Val.str "a"), ("x", Val.int 2)]]⟩, [2]) by decide)
      0 (by decide)⟩

end Lutris
